import Mathlib

/-
Verification of the kuzu-test synthetic-authorization-graph generator and
benchmark statistics engine.

Shallow embedding conventions:
- Elapsed times, probabilities and derived metrics are rationals (the Python
  floats at the relevant call sites are exact enough that the nearest-rank
  index arithmetic coincides with exact rational arithmetic for the sample
  sizes the benchmark produces).
- The process-wide pseudo-random generator (Python `random` + `Faker`, seeded
  once at module import) is modelled as an abstract infinite stream
  `g : Nat -> Nat` together with a cursor into the stream; every primitive
  draw reads the stream at the cursor and advances it.  Generator functions
  thread the cursor explicitly, mirroring the hidden global RNG state.
- Python calls that can raise (`random.randint` on an empty range,
  `random.sample` with a sample size above the population size,
  `random.choice` on an empty list) are embedded as `Option`-returning
  functions; `none` is the raised exception.
-/

namespace KuzuTest

/-! ## Statistics engine

Embeds the statistics block of `AuthorizationBenchmark.benchmark_query`
(src/benchmarks/python/benchmark_queries.py, lines 112-168).  The input is the
list of measured per-iteration elapsed times in milliseconds (one entry per
parameter set, so the list is empty exactly when `params_list` is empty, the
case the source guards with an early `return None`). -/

/-- Numeric fields of the source's `QueryResult` dataclass; the string fields
`query_name` / `query` and the externally-accumulated `results_count` carry no
statistical content and are omitted. -/
structure QueryResult where
  iterations : ℕ
  total_time_sec : ℚ
  avg_time_ms : ℚ
  min_time_ms : ℚ
  max_time_ms : ℚ
  p50_time_ms : ℚ
  p95_time_ms : ℚ
  p99_time_ms : ℚ
  deriving Repr, DecidableEq

/-- Statistics computation of `benchmark_query`: empty parameter list returns
`None` (line 112-114); otherwise the sample list is sorted in place and the
summary statistics are read off the sorted list (lines 146-154).  `int(n*0.95)`
and `int(n*0.99)` truncate toward zero, i.e. are the floors `95*n/100` and
`99*n/100` in exact arithmetic. -/
def benchmarkStats (times : List ℚ) : Option QueryResult :=
  if times.isEmpty then none
  else
    let sorted := times.insertionSort (· ≤ ·)
    let n := times.length
    some
      { iterations := n
        total_time_sec := sorted.sum / 1000
        avg_time_ms := sorted.sum / n
        min_time_ms := sorted.headD 0
        max_time_ms := sorted.getLastD 0
        p50_time_ms := sorted.getD (n / 2) 0
        p95_time_ms := sorted.getD (95 * n / 100) 0
        p99_time_ms := sorted.getD (99 * n / 100) 0 }

/-! ## Cross-run aggregator

Embeds the relative-metric computation of `generate_comprehensive_report`
(src/benchmarks/generate_comprehensive_report.py, lines 215-226): a baseline
result (CSV) and a candidate result (Parquet) are compared by percentage
improvement. -/

/-- Fields of a per-format loading result consumed by the report's
relative-metric computation. -/
structure LoadResult where
  total_load_time_sec : ℚ
  memory_used_mb : ℚ
  deriving Repr, DecidableEq

/-- Percentage loading speedup of `candidate` over `baseline`
(lines 216-219). -/
def loadingSpeedupPct (baseline candidate : LoadResult) : ℚ :=
  (baseline.total_load_time_sec - candidate.total_load_time_sec) /
      baseline.total_load_time_sec * 100

/-- Percentage memory reduction of `candidate` over `baseline`
(lines 220-223). -/
def memoryReductionPct (baseline candidate : LoadResult) : ℚ :=
  (baseline.memory_used_mb - candidate.memory_used_mb) /
      baseline.memory_used_mb * 100

/-! ## Random primitives

The module-level `Faker.seed(42)` / `random.seed(42)` calls
(src/generators/generate_data.py, lines 23-26) fix one process-wide random
stream; every Faker or `random` call reads the stream at the current cursor
and advances the cursor.  The stream is abstract (`Rng`); the cursor is an
explicit `ℕ` threaded through every generator, which is exactly the hidden
global mutable state of the source. -/

/-- Abstract seeded random stream: position ↦ drawn value. -/
abbrev Rng := ℕ → ℕ

/-- Node creation timestamps are drawn from the window `[-2y, now]`
(`fake.date_time_between(start_date="-2y", end_date="now")`), modelled as
seconds in `[0, NOW]` with `NOW` two years of seconds. -/
def NOW : ℕ := 63072000

/-- One opaque Faker text/fact draw (`fake.name()`, `fake.email()`, ...):
reads the stream once and advances the cursor. -/
def textDraw (g : Rng) (pos : ℕ) : ℕ × ℕ := (g pos, pos + 1)

/-- Model of `random.random()`: a rational in `[0, 1)` with resolution 1/1000
(all probability thresholds in the source are multiples of 1/1000). -/
def randQ (g : Rng) (pos : ℕ) : ℚ × ℕ := (mkRat (g pos % 1000) 1000, pos + 1)

/-- Model of `fake.date_time_between(start_date=lo, end_date=hi)`: a value
uniform in `[lo, hi]`; always at least `lo`. -/
def dtBetween (g : Rng) (lo hi pos : ℕ) : ℕ × ℕ := (lo + g pos % (hi - lo + 1), pos + 1)

/-- Model of `random.randint(a, b)`: uniform in `[a, b]`; raises `ValueError`
(here `none`) when the range `[a, b]` is empty. -/
def randintO (g : Rng) (a b pos : ℕ) : Option (ℕ × ℕ) :=
  if a ≤ b then some (a + g pos % (b - a + 1), pos + 1) else none

/-- Model of `random.choice(l)`: uniform element of `l`; raises `IndexError`
(here `none`) on an empty list. -/
def choiceO {α : Type} (g : Rng) (l : List α) (pos : ℕ) : Option (α × ℕ) :=
  if h : 0 < l.length then some (l.get ⟨g pos % l.length, Nat.mod_lt _ h⟩, pos + 1)
  else none

/-- Selection loop of `random.sample`: `k` times, pick a uniform index into
the remaining pool and remove the picked element (sampling without
replacement). -/
def sampleAux {α : Type} (g : Rng) : ℕ → List α → ℕ → List α × ℕ
  | 0, _, pos => ([], pos)
  | k + 1, l, pos =>
    if h : 0 < l.length then
      let i := g pos % l.length
      let x := l.get ⟨i, Nat.mod_lt _ h⟩
      let r := sampleAux g k (l.eraseIdx i) (pos + 1)
      (x :: r.1, r.2)
    else ([], pos)

/-- Model of `random.sample(l, k)`: `k` distinct elements of `l`; raises
`ValueError` (here `none`) when `k` exceeds the population size. -/
def sampleO {α : Type} (g : Rng) (l : List α) (k pos : ℕ) : Option (List α × ℕ) :=
  if k ≤ l.length then some (sampleAux g k l pos) else none

/-! ## Data model

Node identifiers are the zero-padded ordinals of the source
(`"user_%06d" % i`, `"resource_%06d" % i`, `"group_%04d" % i`); the padding is
injective at the generated scales, so identifiers are modelled by their
ordinal `ℕ`.  Opaque Faker attribute values (names, emails, words, ...) are
modelled as the raw `ℕ` stream draws that produced them. -/

structure User where
  id : ℕ
  name : ℕ
  email : ℕ
  created_at : ℕ
  dept : ℕ
  location : ℕ
  deriving Repr, DecidableEq

structure Resource where
  id : ℕ
  rtype : ℕ
  name : ℕ × ℕ
  owner_id : ℕ
  created_at : ℕ
  tag1 : ℕ
  tag2 : ℕ
  deriving Repr, DecidableEq

structure Group where
  id : ℕ
  dept : ℕ
  team : Option ℕ
  description : ℕ
  created_at : ℕ
  level : ℕ
  deriving Repr, DecidableEq

inductive Role where
  | member
  | admin
  deriving Repr, DecidableEq

/-- MEMBER_OF edge (User → Group); `src`/`dst` are the `from`/`to` ids. -/
structure MemberEdge where
  src : ℕ
  dst : ℕ
  joined_at : ℕ
  role : Role
  deriving Repr, DecidableEq

/-- HAS_PERMISSION edge (User → Resource or Group → Resource). -/
structure PermEdge where
  src : ℕ
  dst : ℕ
  can_create : Bool
  can_read : Bool
  can_update : Bool
  can_delete : Bool
  granted_at : ℕ
  granted_by : ℕ
  deriving Repr, DecidableEq

/-- INHERITS_FROM edge (child Group → parent Group). -/
structure InheritEdge where
  src : ℕ
  dst : ℕ
  created_at : ℕ
  deriving Repr, DecidableEq

/-- Probability that a candidate child group inherits from a parent
(`AVG_GROUP_HIERARCHY_DEPTH = 0.3`, line 35). -/
def AVG_GROUP_HIERARCHY_DEPTH : ℚ := mkRat 3 10

/-! ## Entity generator -/

/-- Loop body of `generate_users` (lines 40-62): per user, draw `created_at`,
then `fake.name()`, `fake.email()`, `fake.job()`, `fake.city()` in dict
order; id is the running ordinal `i`. -/
def genUsersAux (g : Rng) : ℕ → ℕ → ℕ → List User × ℕ
  | _, 0, pos => ([], pos)
  | i, n + 1, pos =>
    let created := dtBetween g 0 NOW pos
    let u : User :=
      { id := i, name := g created.2, email := g (created.2 + 1),
        created_at := created.1, dept := g (created.2 + 2), location := g (created.2 + 3) }
    let rest := genUsersAux g (i + 1) n (created.2 + 4)
    (u :: rest.1, rest.2)

def generate_users (g : Rng) (numUsers pos : ℕ) : List User × ℕ :=
  genUsersAux g 0 numUsers pos

/-- Type-specific resource name (lines 76-85).  `RESOURCE_TYPES` is
`[document, folder, project, api_key, database]`; `api_key` (index 3) draws a
single word, `database` (index 4) draws a word plus `random.randint(1, 100)`,
the other types draw two Faker values. -/
def resourceName (g : Rng) (rtype pos : ℕ) : (ℕ × ℕ) × ℕ :=
  if rtype = 3 then ((g pos, 0), pos + 1)
  else if rtype = 4 then ((g pos, 1 + g (pos + 1) % 100), pos + 2)
  else ((g pos, g (pos + 1)), pos + 2)

/-- Loop body of `generate_resources` (lines 65-99): per resource, choose a
type, draw `created_at`, build the type-specific name, then draw
`owner_id = random.randint(0, min(100, num_resources - 1))` and two metadata
tag words. -/
def genResourcesAux (g : Rng) (numResources : ℕ) : ℕ → ℕ → ℕ → List Resource × ℕ
  | _, 0, pos => ([], pos)
  | i, n + 1, pos =>
    let rtype := g pos % 5
    let created := dtBetween g 0 NOW (pos + 1)
    let nm := resourceName g rtype created.2
    let owner := g nm.2 % (min 100 (numResources - 1) + 1)
    let r : Resource :=
      { id := i, rtype := rtype, name := nm.1, owner_id := owner,
        created_at := created.1, tag1 := g (nm.2 + 1), tag2 := g (nm.2 + 2) }
    let rest := genResourcesAux g numResources (i + 1) n (nm.2 + 3)
    (r :: rest.1, rest.2)

def generate_resources (g : Rng) (numResources pos : ℕ) : List Resource × ℕ :=
  genResourcesAux g numResources 0 numResources pos

/-- Loop body of `generate_groups` (lines 102-131): per group, draw
`created_at`, then with probability 0.3 a hierarchical name (department draw
plus team draw) else a department-only name, then `fake.bs()` and
`random.randint(1, 5)` for the metadata level.  The department pool has 6
entries and the team pool 7. -/
def genGroupsAux (g : Rng) : ℕ → ℕ → ℕ → List Group × ℕ
  | _, 0, pos => ([], pos)
  | i, n + 1, pos =>
    let created := dtBetween g 0 NOW pos
    let r := randQ g created.2
    let nm :=
      if r.1 < mkRat 3 10 then ((g r.2 % 6, some (g (r.2 + 1) % 7)), r.2 + 2)
      else ((g r.2 % 6, (none : Option ℕ)), r.2 + 1)
    let grp : Group :=
      { id := i, dept := nm.1.1, team := nm.1.2, description := g nm.2,
        created_at := created.1, level := 1 + g (nm.2 + 1) % 5 }
    let rest := genGroupsAux g (i + 1) n (nm.2 + 2)
    (grp :: rest.1, rest.2)

def generate_groups (g : Rng) (numGroups pos : ℕ) : List Group × ℕ :=
  genGroupsAux g 0 numGroups pos

/-! ## Edge generator -/

/-- Inner loop of `generate_member_of_edges` (lines 144-160): one MEMBER_OF
edge per selected group, with `joined_at` drawn from
`[max(user.created_at, group.created_at), now]` and a role drawn uniformly
from the 4-slot list `[member, member, member, admin]`. -/
def memberEdges (g : Rng) (u : User) : List Group → ℕ → List MemberEdge × ℕ
  | [], pos => ([], pos)
  | grp :: rest, pos =>
    let ts := dtBetween g (max u.created_at grp.created_at) NOW pos
    let role := if g ts.2 % 4 = 3 then Role.admin else Role.member
    let es := memberEdges g u rest (ts.2 + 1)
    ({ src := u.id, dst := grp.id, joined_at := ts.1, role := role } :: es.1, es.2)

/-- Outer loop of `generate_member_of_edges` (lines 134-163): per user, draw
`num_memberships = random.randint(1, min(4, len(groups)))` — the sample size
is capped to the group pool — and sample that many groups without
replacement. -/
def genMemberOfAux (g : Rng) (groups : List Group) : List User → ℕ → Option (List MemberEdge × ℕ)
  | [], pos => some ([], pos)
  | u :: users, pos =>
    match randintO g 1 (min 4 groups.length) pos with
    | none => none
    | some k =>
      match sampleO g groups k.1 k.2 with
      | none => none
      | some sel =>
        let es := memberEdges g u sel.1 sel.2
        match genMemberOfAux g groups users es.2 with
        | none => none
        | some rest => some (es.1 ++ rest.1, rest.2)

def generate_member_of_edges (g : Rng) (users : List User) (groups : List Group) (pos : ℕ) :
    Option (List MemberEdge × ℕ) :=
  genMemberOfAux g groups users pos

/-- Python's short-circuit `is_owner or random.random() < p` (lines 195-198):
when the subject owns the resource the flag is `True` and no random draw is
consumed. -/
def ownerOr (g : Rng) (isOwner : Bool) (p : ℚ) (pos : ℕ) : Bool × ℕ :=
  if isOwner then (true, pos)
  else
    let r := randQ g pos
    (decide (r.1 < p), r.2)

/-- Inner loop of `generate_user_permission_edges` (lines 178-202): one
HAS_PERMISSION_USER edge per selected user, flags forced true for the
resource's owner (create 0.3, read 0.9, update 0.5, delete 0.2 otherwise),
`granted_by` always the resource's owner. -/
def userPermEdges (g : Rng) (r : Resource) : List User → ℕ → List PermEdge × ℕ
  | [], pos => ([], pos)
  | u :: rest, pos =>
    let ts := dtBetween g (max u.created_at r.created_at) NOW pos
    let isOwner : Bool := u.id = r.owner_id
    let c := ownerOr g isOwner (mkRat 3 10) ts.2
    let rd := ownerOr g isOwner (mkRat 9 10) c.2
    let up := ownerOr g isOwner (mkRat 5 10) rd.2
    let d := ownerOr g isOwner (mkRat 2 10) up.2
    let es := userPermEdges g r rest d.2
    ({ src := u.id, dst := r.id, can_create := c.1, can_read := rd.1, can_update := up.1,
       can_delete := d.1, granted_at := ts.1, granted_by := r.owner_id } :: es.1, es.2)

/-- Outer loop of `generate_user_permission_edges` (lines 166-205): per
resource, draw `num_permissions = random.randint(1, 5)` — NOT capped to the
user pool — and call `random.sample(users, num_permissions)`, which raises
when the pool is smaller than the drawn size. -/
def genUserPermsAux (g : Rng) (users : List User) : List Resource → ℕ → Option (List PermEdge × ℕ)
  | [], pos => some ([], pos)
  | r :: resources, pos =>
    match randintO g 1 5 pos with
    | none => none
    | some k =>
      match sampleO g users k.1 k.2 with
      | none => none
      | some sel =>
        let es := userPermEdges g r sel.1 sel.2
        match genUserPermsAux g users resources es.2 with
        | none => none
        | some rest => some (es.1 ++ rest.1, rest.2)

def generate_user_permission_edges (g : Rng) (users : List User) (resources : List Resource)
    (pos : ℕ) : Option (List PermEdge × ℕ) :=
  genUserPermsAux g users resources pos

/-- Inner loop of `generate_group_permission_edges` (lines 221-242): one
HAS_PERMISSION_GROUP edge per selected group (create 0.4, read 0.95,
update 0.6, delete 0.3), `granted_by` always the resource's owner. -/
def groupPermEdges (g : Rng) (r : Resource) : List Group → ℕ → List PermEdge × ℕ
  | [], pos => ([], pos)
  | grp :: rest, pos =>
    let ts := dtBetween g (max grp.created_at r.created_at) NOW pos
    let c := randQ g ts.2
    let rd := randQ g c.2
    let up := randQ g rd.2
    let d := randQ g up.2
    let es := groupPermEdges g r rest d.2
    ({ src := grp.id, dst := r.id, can_create := decide (c.1 < mkRat 4 10),
       can_read := decide (rd.1 < mkRat 95 100), can_update := decide (up.1 < mkRat 6 10),
       can_delete := decide (d.1 < mkRat 3 10), granted_at := ts.1, granted_by := r.owner_id } :: es.1,
      es.2)

/-- Outer loop of `generate_group_permission_edges` (lines 208-245): per
resource, draw `num_permissions = random.randint(0, 3)` — NOT capped to the
group pool — and, when positive, call `random.sample(groups, num_permissions)`,
which raises when the pool is smaller than the drawn size. -/
def genGroupPermsAux (g : Rng) (groups : List Group) :
    List Resource → ℕ → Option (List PermEdge × ℕ)
  | [], pos => some ([], pos)
  | r :: resources, pos =>
    match randintO g 0 3 pos with
    | none => none
    | some k =>
      if k.1 = 0 then
        genGroupPermsAux g groups resources k.2
      else
        match sampleO g groups k.1 k.2 with
        | none => none
        | some sel =>
          let es := groupPermEdges g r sel.1 sel.2
          match genGroupPermsAux g groups resources es.2 with
          | none => none
          | some rest => some (es.1 ++ rest.1, rest.2)

def generate_group_permission_edges (g : Rng) (groups : List Group) (resources : List Resource)
    (pos : ℕ) : Option (List PermEdge × ℕ) :=
  genGroupPermsAux g groups resources pos

/-- Loop of `generate_inherits_from_edges` (lines 257-274): each candidate
child independently inherits with probability `AVG_GROUP_HIERARCHY_DEPTH`,
drawing a uniform parent from the parent pool. -/
def genInheritsAux (g : Rng) (parents : List Group) :
    List Group → ℕ → Option (List InheritEdge × ℕ)
  | [], pos => some ([], pos)
  | c :: children, pos =>
    let r := randQ g pos
    if r.1 < AVG_GROUP_HIERARCHY_DEPTH then
      match choiceO g parents r.2 with
      | none => none
      | some p =>
        let ts := dtBetween g (max c.created_at p.1.created_at) NOW p.2
        match genInheritsAux g parents children ts.2 with
        | none => none
        | some rest =>
          some ({ src := c.id, dst := p.1.id, created_at := ts.1 } :: rest.1, rest.2)
    else genInheritsAux g parents children r.2

/-- `generate_inherits_from_edges` (lines 248-277): potential parents are the
first half of the group list (`groups[: len(groups) // 2]`), potential
children the second half (`groups[len(groups) // 2 :]`). -/
def generate_inherits_from_edges (g : Rng) (groups : List Group) (pos : ℕ) :
    Option (List InheritEdge × ℕ) :=
  genInheritsAux g (groups.take (groups.length / 2))
    (groups.drop (groups.length / 2)) pos

/-- One full generation run, mirroring `main` (lines 315-338): nodes first,
then the four edge kinds, all consuming the single process-wide random
stream in sequence starting from the cursor `pos`. -/
structure Dataset where
  users : List User
  resources : List Resource
  groups : List Group
  member_of : List MemberEdge
  user_permissions : List PermEdge
  group_permissions : List PermEdge
  inherits_from : List InheritEdge
  deriving Repr, DecidableEq

def generateDataset (g : Rng) (numUsers numResources numGroups pos : ℕ) : Option Dataset :=
  let users := generate_users g numUsers pos
  let resources := generate_resources g numResources users.2
  let groups := generate_groups g numGroups resources.2
  match generate_member_of_edges g users.1 groups.1 groups.2 with
  | none => none
  | some member_of =>
    match generate_user_permission_edges g users.1 resources.1 member_of.2 with
    | none => none
    | some user_permissions =>
      match generate_group_permission_edges g groups.1 resources.1 user_permissions.2 with
      | none => none
      | some group_permissions =>
        match generate_inherits_from_edges g groups.1 group_permissions.2 with
        | none => none
        | some inherits_from =>
          some ⟨users.1, resources.1, groups.1, member_of.1, user_permissions.1,
            group_permissions.1, inherits_from.1⟩

/-- The empty dataset (used as an `Option.getD` default below). -/
def emptyDataset : Dataset := ⟨[], [], [], [], [], [], []⟩

/-- Relation induced by a set of INHERITS_FROM edges: `a` inherits from `b`. -/
def inheritsRel (es : List InheritEdge) (a b : ℕ) : Prop :=
  ∃ e ∈ es, e.src = a ∧ e.dst = b

/-- Two random streams agree on every position at or after `pos` (the
portion of the stream a run starting at cursor `pos` can consume). -/
def agreeFrom (g1 g2 : Rng) (pos : ℕ) : Prop := ∀ p, pos ≤ p → g1 p = g2 p

/-- Witness data for the run-level claims: a concrete successful generation
run with 1 user, 1 resource and 2 groups on the all-zero stream. -/
def run0 : Option Dataset := generateDataset (fun _ => 0) 1 1 2 0

def ds0 : Dataset := run0.getD emptyDataset


/-! ## Claim theorems: statistics engine and cross-run aggregator -/

/-- C2: for an empty sample sequence the statistics computation fails fast
with the defined empty-sample error (the source's `return None` guard,
modelled as `none`), and only then — a non-empty sample never produces the
error value, so no silent division-by-zero result is ever returned for the
empty case. -/
theorem benchmarkStats_empty_iff (times : List ℚ) :
    benchmarkStats times = none ↔ times = [] := by
  cases times with
  | nil => simp [benchmarkStats]
  | cons a l => simp [benchmarkStats]

/-- C1: for every non-empty sample list, the statistics computation sorts the
samples (the reported order is a sorted permutation of the input) and returns
the 50th/95th/99th percentiles as the sorted values at the nearest-rank
indices `⌊0.50·n⌋`, `⌊0.95·n⌋`, `⌊0.99·n⌋`, all of which are in range. -/
theorem benchmarkStats_nearest_rank (times : List ℚ) (h : times ≠ []) :
    ∃ st, benchmarkStats times = some st ∧
      (times.insertionSort (· ≤ ·)).Sorted (· ≤ ·) ∧
      List.Perm (times.insertionSort (· ≤ ·)) times ∧
      times.length / 2 < times.length ∧
      95 * times.length / 100 < times.length ∧
      99 * times.length / 100 < times.length ∧
      st.p50_time_ms = (times.insertionSort (· ≤ ·)).getD (times.length / 2) 0 ∧
      st.p95_time_ms = (times.insertionSort (· ≤ ·)).getD (95 * times.length / 100) 0 ∧
      st.p99_time_ms = (times.insertionSort (· ≤ ·)).getD (99 * times.length / 100) 0 := by
  cases times with
  | nil => exact absurd rfl h
  | cons a l =>
    have h0 : 0 < (a :: l).length := by simp
    refine ⟨_, rfl, List.sorted_insertionSort _ _, List.perm_insertionSort _ _, ?_, ?_, ?_,
      rfl, rfl, rfl⟩
    · omega
    · rw [Nat.div_lt_iff_lt_mul (by norm_num)]
      simp only [List.length_cons]
      omega
    · rw [Nat.div_lt_iff_lt_mul (by norm_num)]
      simp only [List.length_cons]
      omega

/-- Witness for C1 at the spec's concrete example `[1, ..., 10]`:
p50 is the sorted value at index 5 (value 6) and p95 the value at
index 9 (value 10). -/
theorem benchmarkStats_nearest_rank_witness :
    (([1, 2, 3, 4, 5, 6, 7, 8, 9, 10] : List ℚ) ≠ [] ∧
      ∃ st, benchmarkStats [1, 2, 3, 4, 5, 6, 7, 8, 9, 10] = some st ∧
        (([1, 2, 3, 4, 5, 6, 7, 8, 9, 10] : List ℚ).insertionSort (· ≤ ·)).Sorted (· ≤ ·) ∧
        List.Perm (([1, 2, 3, 4, 5, 6, 7, 8, 9, 10] : List ℚ).insertionSort (· ≤ ·))
          [1, 2, 3, 4, 5, 6, 7, 8, 9, 10] ∧
        ([1, 2, 3, 4, 5, 6, 7, 8, 9, 10] : List ℚ).length / 2 <
          ([1, 2, 3, 4, 5, 6, 7, 8, 9, 10] : List ℚ).length ∧
        95 * ([1, 2, 3, 4, 5, 6, 7, 8, 9, 10] : List ℚ).length / 100 <
          ([1, 2, 3, 4, 5, 6, 7, 8, 9, 10] : List ℚ).length ∧
        99 * ([1, 2, 3, 4, 5, 6, 7, 8, 9, 10] : List ℚ).length / 100 <
          ([1, 2, 3, 4, 5, 6, 7, 8, 9, 10] : List ℚ).length ∧
        st.p50_time_ms = (([1, 2, 3, 4, 5, 6, 7, 8, 9, 10] : List ℚ).insertionSort (· ≤ ·)).getD
          (([1, 2, 3, 4, 5, 6, 7, 8, 9, 10] : List ℚ).length / 2) 0 ∧
        st.p95_time_ms = (([1, 2, 3, 4, 5, 6, 7, 8, 9, 10] : List ℚ).insertionSort (· ≤ ·)).getD
          (95 * ([1, 2, 3, 4, 5, 6, 7, 8, 9, 10] : List ℚ).length / 100) 0 ∧
        st.p99_time_ms = (([1, 2, 3, 4, 5, 6, 7, 8, 9, 10] : List ℚ).insertionSort (· ≤ ·)).getD
          (99 * ([1, 2, 3, 4, 5, 6, 7, 8, 9, 10] : List ℚ).length / 100) 0) ∧
    (benchmarkStats [1, 2, 3, 4, 5, 6, 7, 8, 9, 10]).map QueryResult.p50_time_ms = some 6 ∧
    (benchmarkStats [1, 2, 3, 4, 5, 6, 7, 8, 9, 10]).map QueryResult.p95_time_ms = some 10 ∧
    (benchmarkStats [1, 2, 3, 4, 5, 6, 7, 8, 9, 10]).map QueryResult.p99_time_ms = some 10 :=
  ⟨⟨by decide, benchmarkStats_nearest_rank [1, 2, 3, 4, 5, 6, 7, 8, 9, 10] (by decide)⟩,
    by decide, by decide, by decide⟩

/-- C4: for a baseline/candidate pair with nonzero baseline, the aggregator's
derived metrics for elapsed time and memory are exactly the percentage
improvement `(baseline − candidate) / baseline × 100` (stated
cross-multiplied), and at the spec's concrete pairs: 10.0s → 7.0s is a 30%
speedup, 100MB → 15MB an 85% reduction. -/
theorem report_relative_improvement (b c : LoadResult)
    (ht : b.total_load_time_sec ≠ 0) (hm : b.memory_used_mb ≠ 0) :
    loadingSpeedupPct b c * b.total_load_time_sec =
        (b.total_load_time_sec - c.total_load_time_sec) * 100 ∧
    memoryReductionPct b c * b.memory_used_mb =
        (b.memory_used_mb - c.memory_used_mb) * 100 ∧
    loadingSpeedupPct ⟨10, 100⟩ ⟨7, 15⟩ = 30 ∧
    memoryReductionPct ⟨10, 100⟩ ⟨7, 15⟩ = 85 := by
  refine ⟨?_, ?_, ?_, ?_⟩
  · unfold loadingSpeedupPct
    field_simp
  · unfold memoryReductionPct
    field_simp
  · show ((10 : ℚ) - 7) / 10 * 100 = 30
    norm_num
  · show ((100 : ℚ) - 15) / 100 * 100 = 85
    norm_num

/-- Witness for C4 at the spec's concrete baseline/candidate pair. -/
theorem report_relative_improvement_witness :
    (LoadResult.mk 10 100).total_load_time_sec ≠ 0 ∧
    (LoadResult.mk 10 100).memory_used_mb ≠ 0 ∧
    (loadingSpeedupPct ⟨10, 100⟩ ⟨7, 15⟩ * (LoadResult.mk 10 100).total_load_time_sec =
        ((LoadResult.mk 10 100).total_load_time_sec -
          (LoadResult.mk 7 15).total_load_time_sec) * 100 ∧
      memoryReductionPct ⟨10, 100⟩ ⟨7, 15⟩ * (LoadResult.mk 10 100).memory_used_mb =
        ((LoadResult.mk 10 100).memory_used_mb - (LoadResult.mk 7 15).memory_used_mb) * 100 ∧
      loadingSpeedupPct ⟨10, 100⟩ ⟨7, 15⟩ = 30 ∧
      memoryReductionPct ⟨10, 100⟩ ⟨7, 15⟩ = 85) :=
  ⟨by norm_num, by norm_num,
    report_relative_improvement ⟨10, 100⟩ ⟨7, 15⟩ (by norm_num) (by norm_num)⟩

/-! ## Helper lemmas: random primitives -/

theorem dtBetween_fst_le (g : Rng) (lo hi pos : ℕ) : lo ≤ (dtBetween g lo hi pos).1 :=
  Nat.le_add_right _ _

theorem randintO_eq_some {g : Rng} {a b pos : ℕ} {out : ℕ × ℕ}
    (h : randintO g a b pos = some out) : a ≤ out.1 ∧ out.1 ≤ b := by
  unfold randintO at h
  by_cases hab : a ≤ b
  · rw [if_pos hab] at h
    obtain rfl := Option.some.inj h
    have h2 : g pos % (b - a + 1) < b - a + 1 := Nat.mod_lt _ (by omega)
    constructor
    · exact Nat.le_add_right _ _
    · simp only
      omega
  · rw [if_neg hab] at h
    cases h

theorem randintO_isSome {g : Rng} {a b pos : ℕ} (hab : a ≤ b) :
    randintO g a b pos = some (a + g pos % (b - a + 1), pos + 1) := by
  unfold randintO
  rw [if_pos hab]

theorem choiceO_eq_some {α : Type} {g : Rng} {l : List α} {pos : ℕ} {out : α × ℕ}
    (h : choiceO g l pos = some out) : out.1 ∈ l := by
  unfold choiceO at h
  by_cases hl : 0 < l.length
  · rw [dif_pos hl] at h
    obtain rfl := Option.some.inj h
    exact List.get_mem _ _ _
  · rw [dif_neg hl] at h
    cases h

theorem sampleAux_subset {α : Type} (g : Rng) :
    ∀ (k : ℕ) (l : List α) (pos : ℕ), ∀ x ∈ (sampleAux g k l pos).1, x ∈ l := by
  intro k
  induction k with
  | zero => intro l pos x hx; simp [sampleAux] at hx
  | succ k ih =>
    intro l pos x hx
    rw [sampleAux] at hx
    by_cases h : 0 < l.length
    · rw [dif_pos h] at hx
      simp only at hx
      rcases List.mem_cons.mp hx with h1 | h1
      · subst h1
        exact List.get_mem _ _ _
      · exact (List.eraseIdx_sublist l _).subset (ih _ _ _ h1)
    · rw [dif_neg h] at hx
      simp at hx

theorem sampleAux_length {α : Type} (g : Rng) :
    ∀ (k : ℕ) (l : List α) (pos : ℕ), (sampleAux g k l pos).1.length = min k l.length := by
  intro k
  induction k with
  | zero => intro l pos; simp [sampleAux]
  | succ k ih =>
    intro l pos
    rw [sampleAux]
    by_cases h : 0 < l.length
    · rw [dif_pos h]
      have he : (l.eraseIdx (g pos % l.length)).length = l.length - 1 :=
        List.length_eraseIdx_of_lt (Nat.mod_lt _ h)
      simp only [List.length_cons, ih, he]
      omega
    · rw [dif_neg h]
      simp only [List.length_nil]
      omega

theorem sampleO_eq_some {α : Type} {g : Rng} {l : List α} {k pos : ℕ} {out : List α × ℕ}
    (h : sampleO g l k pos = some out) :
    out.1.length = k ∧ ∀ x ∈ out.1, x ∈ l := by
  unfold sampleO at h
  by_cases hk : k ≤ l.length
  · rw [if_pos hk] at h
    obtain rfl := Option.some.inj h
    refine ⟨?_, fun x hx => sampleAux_subset g k l pos x hx⟩
    rw [sampleAux_length]
    omega
  · rw [if_neg hk] at h
    cases h

theorem sampleO_isSome {α : Type} (g : Rng) (l : List α) (k pos : ℕ) (hk : k ≤ l.length) :
    sampleO g l k pos = some (sampleAux g k l pos) := by
  unfold sampleO
  rw [if_pos hk]

/-! ## Helper lemmas: identifier structure of generated nodes -/

theorem genUsersAux_ids (g : Rng) :
    ∀ (n i pos : ℕ), (genUsersAux g i n pos).1.map User.id = List.range' i n := by
  intro n
  induction n with
  | zero => intro i pos; rfl
  | succ n ih =>
    intro i pos
    rw [genUsersAux]
    simp only [List.map_cons, ih, List.range'_succ]

theorem genResourcesAux_ids (g : Rng) (numResources : ℕ) :
    ∀ (n i pos : ℕ), (genResourcesAux g numResources i n pos).1.map Resource.id =
      List.range' i n := by
  intro n
  induction n with
  | zero => intro i pos; rfl
  | succ n ih =>
    intro i pos
    rw [genResourcesAux]
    simp only [List.map_cons, ih, List.range'_succ]

theorem genGroupsAux_ids (g : Rng) :
    ∀ (n i pos : ℕ), (genGroupsAux g i n pos).1.map Group.id = List.range' i n := by
  intro n
  induction n with
  | zero => intro i pos; rfl
  | succ n ih =>
    intro i pos
    rw [genGroupsAux]
    simp only [List.map_cons, ih, List.range'_succ]

theorem generate_users_id_inj (g : Rng) (n pos : ℕ) :
    ∀ u ∈ (generate_users g n pos).1, ∀ v ∈ (generate_users g n pos).1,
      u.id = v.id → u = v := by
  intro u hu v hv h
  have hn : ((generate_users g n pos).1.map User.id).Nodup := by
    unfold generate_users
    rw [genUsersAux_ids]
    exact List.nodup_range' 0 n
  exact List.inj_on_of_nodup_map hn hu hv h

theorem generate_resources_id_inj (g : Rng) (n pos : ℕ) :
    ∀ u ∈ (generate_resources g n pos).1, ∀ v ∈ (generate_resources g n pos).1,
      u.id = v.id → u = v := by
  intro u hu v hv h
  have hn : ((generate_resources g n pos).1.map Resource.id).Nodup := by
    unfold generate_resources
    rw [genResourcesAux_ids]
    exact List.nodup_range' 0 n
  exact List.inj_on_of_nodup_map hn hu hv h

theorem generate_groups_id_inj (g : Rng) (n pos : ℕ) :
    ∀ u ∈ (generate_groups g n pos).1, ∀ v ∈ (generate_groups g n pos).1,
      u.id = v.id → u = v := by
  intro u hu v hv h
  have hn : ((generate_groups g n pos).1.map Group.id).Nodup := by
    unfold generate_groups
    rw [genGroupsAux_ids]
    exact List.nodup_range' 0 n
  exact List.inj_on_of_nodup_map hn hu hv h

theorem generate_groups_id_pairwise (g : Rng) (n pos : ℕ) :
    ((generate_groups g n pos).1).Pairwise (fun a b => a.id < b.id) := by
  have hp : ((generate_groups g n pos).1.map Group.id).Pairwise (· < ·) := by
    unfold generate_groups
    rw [genGroupsAux_ids]
    exact List.pairwise_lt_range' 0 n
  exact List.pairwise_map.mp hp

/-! ## Helper lemmas: origin of generated edges -/

theorem memberEdges_mem (g : Rng) (u : User) :
    ∀ (sel : List Group) (pos : ℕ), ∀ e ∈ (memberEdges g u sel pos).1,
      ∃ grp ∈ sel, e.src = u.id ∧ e.dst = grp.id ∧
        u.created_at ≤ e.joined_at ∧ grp.created_at ≤ e.joined_at := by
  intro sel
  induction sel with
  | nil => intro pos e he; simp [memberEdges] at he
  | cons grp rest ih =>
    intro pos e he
    rw [memberEdges] at he
    simp only at he
    rcases List.mem_cons.mp he with h1 | h1
    · subst h1
      refine ⟨grp, List.mem_cons_self _ _, rfl, rfl, ?_, ?_⟩
      · exact le_trans (le_max_left _ _) (dtBetween_fst_le g _ NOW pos)
      · exact le_trans (le_max_right _ _) (dtBetween_fst_le g _ NOW pos)
    · obtain ⟨grp', hg', h⟩ := ih _ _ h1
      exact ⟨grp', List.mem_cons_of_mem _ hg', h⟩

theorem genMemberOfAux_mem (g : Rng) (groups : List Group) :
    ∀ (users : List User) (pos : ℕ) (out : List MemberEdge × ℕ),
      genMemberOfAux g groups users pos = some out →
      ∀ e ∈ out.1, ∃ u ∈ users, ∃ grp ∈ groups, e.src = u.id ∧ e.dst = grp.id ∧
        u.created_at ≤ e.joined_at ∧ grp.created_at ≤ e.joined_at := by
  intro users
  induction users with
  | nil =>
    intro pos out h e he
    obtain rfl := Option.some.inj h
    simp at he
  | cons u rest ih =>
    intro pos out h e he
    rw [genMemberOfAux] at h
    split at h
    · cases h
    · rename_i k hk
      split at h
      · cases h
      · rename_i sel hs
        dsimp only at h
        split at h
        · cases h
        · rename_i tail hr
          obtain rfl := Option.some.inj h
          rcases List.mem_append.mp he with h1 | h1
          · obtain ⟨grp, hg, hsrc, hdst, h3, h4⟩ := memberEdges_mem g u sel.1 sel.2 e h1
            exact ⟨u, List.mem_cons_self _ _,
              grp, (sampleO_eq_some hs).2 grp hg, hsrc, hdst, h3, h4⟩
          · obtain ⟨u', hu', grp, hg, hrest⟩ := ih _ _ hr e h1
            exact ⟨u', List.mem_cons_of_mem _ hu', grp, hg, hrest⟩

theorem userPermEdges_mem (g : Rng) (r : Resource) :
    ∀ (sel : List User) (pos : ℕ), ∀ e ∈ (userPermEdges g r sel pos).1,
      ∃ u ∈ sel, e.src = u.id ∧ e.dst = r.id ∧ e.granted_by = r.owner_id ∧
        u.created_at ≤ e.granted_at ∧ r.created_at ≤ e.granted_at ∧
        (u.id = r.owner_id → e.can_create = true ∧ e.can_read = true ∧
          e.can_update = true ∧ e.can_delete = true) := by
  intro sel
  induction sel with
  | nil => intro pos e he; simp [userPermEdges] at he
  | cons u rest ih =>
    intro pos e he
    rw [userPermEdges] at he
    dsimp only at he
    rcases List.mem_cons.mp he with h1 | h1
    · subst h1
      refine ⟨u, List.mem_cons_self _ _, rfl, rfl, rfl, ?_, ?_, ?_⟩
      · exact le_trans (le_max_left _ _) (dtBetween_fst_le g _ NOW pos)
      · exact le_trans (le_max_right _ _) (dtBetween_fst_le g _ NOW pos)
      · intro howner
        simp [ownerOr, howner]
    · obtain ⟨u', hu', hrest⟩ := ih _ _ h1
      exact ⟨u', List.mem_cons_of_mem _ hu', hrest⟩

theorem genUserPermsAux_mem (g : Rng) (users : List User) :
    ∀ (resources : List Resource) (pos : ℕ) (out : List PermEdge × ℕ),
      genUserPermsAux g users resources pos = some out →
      ∀ e ∈ out.1, ∃ r ∈ resources, ∃ u ∈ users, e.src = u.id ∧ e.dst = r.id ∧
        e.granted_by = r.owner_id ∧ u.created_at ≤ e.granted_at ∧
        r.created_at ≤ e.granted_at ∧
        (u.id = r.owner_id → e.can_create = true ∧ e.can_read = true ∧
          e.can_update = true ∧ e.can_delete = true) := by
  intro resources
  induction resources with
  | nil =>
    intro pos out h e he
    obtain rfl := Option.some.inj h
    simp at he
  | cons r rest ih =>
    intro pos out h e he
    rw [genUserPermsAux] at h
    split at h
    · cases h
    · rename_i k hk
      split at h
      · cases h
      · rename_i sel hs
        dsimp only at h
        split at h
        · cases h
        · rename_i tail hr
          obtain rfl := Option.some.inj h
          rcases List.mem_append.mp he with h1 | h1
          · obtain ⟨u, hu, hrest⟩ := userPermEdges_mem g r sel.1 sel.2 e h1
            exact ⟨r, List.mem_cons_self _ _, u, (sampleO_eq_some hs).2 u hu, hrest⟩
          · obtain ⟨r', hr', hrest⟩ := ih _ _ hr e h1
            exact ⟨r', List.mem_cons_of_mem _ hr', hrest⟩

theorem groupPermEdges_mem (g : Rng) (r : Resource) :
    ∀ (sel : List Group) (pos : ℕ), ∀ e ∈ (groupPermEdges g r sel pos).1,
      ∃ grp ∈ sel, e.src = grp.id ∧ e.dst = r.id ∧ e.granted_by = r.owner_id ∧
        grp.created_at ≤ e.granted_at ∧ r.created_at ≤ e.granted_at := by
  intro sel
  induction sel with
  | nil => intro pos e he; simp [groupPermEdges] at he
  | cons grp rest ih =>
    intro pos e he
    rw [groupPermEdges] at he
    dsimp only at he
    rcases List.mem_cons.mp he with h1 | h1
    · subst h1
      refine ⟨grp, List.mem_cons_self _ _, rfl, rfl, rfl, ?_, ?_⟩
      · exact le_trans (le_max_left _ _) (dtBetween_fst_le g _ NOW pos)
      · exact le_trans (le_max_right _ _) (dtBetween_fst_le g _ NOW pos)
    · obtain ⟨grp', hg', hrest⟩ := ih _ _ h1
      exact ⟨grp', List.mem_cons_of_mem _ hg', hrest⟩

theorem genGroupPermsAux_mem (g : Rng) (groups : List Group) :
    ∀ (resources : List Resource) (pos : ℕ) (out : List PermEdge × ℕ),
      genGroupPermsAux g groups resources pos = some out →
      ∀ e ∈ out.1, ∃ r ∈ resources, ∃ grp ∈ groups, e.src = grp.id ∧ e.dst = r.id ∧
        e.granted_by = r.owner_id ∧ grp.created_at ≤ e.granted_at ∧
        r.created_at ≤ e.granted_at := by
  intro resources
  induction resources with
  | nil =>
    intro pos out h e he
    obtain rfl := Option.some.inj h
    simp at he
  | cons r rest ih =>
    intro pos out h e he
    rw [genGroupPermsAux] at h
    split at h
    · cases h
    · rename_i k hk
      split at h
      · obtain ⟨r', hr', hrest⟩ := ih _ _ h e he
        exact ⟨r', List.mem_cons_of_mem _ hr', hrest⟩
      · split at h
        · cases h
        · rename_i sel hs
          dsimp only at h
          split at h
          · cases h
          · rename_i tail hr
            obtain rfl := Option.some.inj h
            rcases List.mem_append.mp he with h1 | h1
            · obtain ⟨grp, hg, hrest⟩ := groupPermEdges_mem g r sel.1 sel.2 e h1
              exact ⟨r, List.mem_cons_self _ _, grp, (sampleO_eq_some hs).2 grp hg, hrest⟩
            · obtain ⟨r', hr', hrest⟩ := ih _ _ hr e h1
              exact ⟨r', List.mem_cons_of_mem _ hr', hrest⟩

theorem genInheritsAux_mem (g : Rng) (parents : List Group) :
    ∀ (children : List Group) (pos : ℕ) (out : List InheritEdge × ℕ),
      genInheritsAux g parents children pos = some out →
      ∀ e ∈ out.1, ∃ c ∈ children, ∃ p ∈ parents, e.src = c.id ∧ e.dst = p.id ∧
        c.created_at ≤ e.created_at ∧ p.created_at ≤ e.created_at := by
  intro children
  induction children with
  | nil =>
    intro pos out h e he
    obtain rfl := Option.some.inj h
    simp at he
  | cons c rest ih =>
    intro pos out h e he
    rw [genInheritsAux] at h
    split at h
    · split at h
      · cases h
      · rename_i p hp
        dsimp only at h
        split at h
        · cases h
        · rename_i tail hr
          obtain rfl := Option.some.inj h
          rcases List.mem_cons.mp he with h1 | h1
          · subst h1
            refine ⟨c, List.mem_cons_self _ _, p.1, choiceO_eq_some hp, rfl, rfl, ?_, ?_⟩
            · exact le_trans (le_max_left _ _) (dtBetween_fst_le g _ NOW p.2)
            · exact le_trans (le_max_right _ _) (dtBetween_fst_le g _ NOW p.2)
          · obtain ⟨c', hc', hrest⟩ := ih _ _ hr e h1
            exact ⟨c', List.mem_cons_of_mem _ hc', hrest⟩
    · obtain ⟨c', hc', hrest⟩ := ih _ _ h e he
      exact ⟨c', List.mem_cons_of_mem _ hc', hrest⟩

theorem genInheritsAux_srcs_sublist (g : Rng) (parents : List Group) :
    ∀ (children : List Group) (pos : ℕ) (out : List InheritEdge × ℕ),
      genInheritsAux g parents children pos = some out →
      List.Sublist (out.1.map InheritEdge.src) (children.map Group.id) := by
  intro children
  induction children with
  | nil =>
    intro pos out h
    obtain rfl := Option.some.inj h
    simp
  | cons c rest ih =>
    intro pos out h
    rw [genInheritsAux] at h
    split at h
    · split at h
      · cases h
      · rename_i p hp
        dsimp only at h
        split at h
        · cases h
        · rename_i tail hr
          obtain rfl := Option.some.inj h
          simpa using List.Sublist.cons₂ c.id (ih _ _ hr)
    · exact List.Sublist.cons c.id (ih _ _ h)

theorem memberEdges_length (g : Rng) (u : User) :
    ∀ (sel : List Group) (pos : ℕ), (memberEdges g u sel pos).1.length = sel.length := by
  intro sel
  induction sel with
  | nil => intro pos; rfl
  | cons grp rest ih =>
    intro pos
    rw [memberEdges]
    simp only [List.length_cons, ih]

theorem memberEdges_src (g : Rng) (u : User) (sel : List Group) (pos : ℕ) :
    ∀ e ∈ (memberEdges g u sel pos).1, e.src = u.id := by
  intro e he
  obtain ⟨grp, hg, hsrc, hrest⟩ := memberEdges_mem g u sel pos e he
  exact hsrc

theorem genMemberOfAux_isSome (g : Rng) (groups : List Group) (hg : groups ≠ []) :
    ∀ (users : List User) (pos : ℕ), ∃ out, genMemberOfAux g groups users pos = some out := by
  have hlen : 0 < groups.length := List.length_pos.mpr hg
  intro users
  induction users with
  | nil => intro pos; exact ⟨([], pos), rfl⟩
  | cons u rest ih =>
    intro pos
    have hmin : 1 ≤ min 4 groups.length := by omega
    have hmod : g pos % (min 4 groups.length - 1 + 1) < min 4 groups.length - 1 + 1 :=
      Nat.mod_lt _ (by omega)
    have hk : 1 + g pos % (min 4 groups.length - 1 + 1) ≤ groups.length := by omega
    rw [genMemberOfAux, randintO_isSome hmin]
    dsimp only
    rw [sampleO_isSome g groups _ _ hk]
    dsimp only
    obtain ⟨out', hout'⟩ := ih (memberEdges g u
      (sampleAux g (1 + g pos % (min 4 groups.length - 1 + 1)) groups (pos + 1)).1
      (sampleAux g (1 + g pos % (min 4 groups.length - 1 + 1)) groups (pos + 1)).2).2
    rw [hout']
    exact ⟨_, rfl⟩

theorem genMemberOfAux_filter_le (g : Rng) (groups : List Group) :
    ∀ (users : List User) (pos : ℕ) (out : List MemberEdge × ℕ),
      genMemberOfAux g groups users pos = some out →
      (users.map User.id).Nodup →
      ∀ u ∈ users,
        (out.1.filter (fun e => decide (e.src = u.id))).length ≤ min 4 groups.length := by
  intro users
  induction users with
  | nil => intro pos out h hnd u hu; simp at hu
  | cons u' rest ih =>
    intro pos out h hnd u hu
    rw [genMemberOfAux] at h
    split at h
    · cases h
    · rename_i k hk
      split at h
      · cases h
      · rename_i sel hs
        dsimp only at h
        split at h
        · cases h
        · rename_i tail hr
          obtain rfl := Option.some.inj h
          simp only [List.map_cons, List.nodup_cons, List.mem_map] at hnd
          dsimp only
          rw [List.filter_append, List.length_append]
          rcases List.mem_cons.mp hu with h1 | h1
          · subst h1
            have htail0 :
                (tail.1.filter (fun e => decide (e.src = u.id))).length = 0 := by
              rw [List.length_eq_zero, List.filter_eq_nil_iff]
              intro e he
              obtain ⟨u'', hu'', grp, hgrp, hsrc, hrest⟩ :=
                genMemberOfAux_mem g groups rest _ tail hr e he
              simp only [decide_eq_true_eq]
              intro hcon
              exact hnd.1 ⟨u'', hu'', by rw [← hsrc]; exact hcon⟩
            have hblock :
                ((memberEdges g u sel.1 sel.2).1.filter
                  (fun e => decide (e.src = u.id))).length ≤ min 4 groups.length := by
              calc ((memberEdges g u sel.1 sel.2).1.filter
                    (fun e => decide (e.src = u.id))).length
                  ≤ (memberEdges g u sel.1 sel.2).1.length := List.length_filter_le _ _
                _ = sel.1.length := memberEdges_length g u sel.1 sel.2
                _ = k.1 := (sampleO_eq_some hs).1
                _ ≤ min 4 groups.length := (randintO_eq_some hk).2
            omega
          · have hblock0 :
                ((memberEdges g u' sel.1 sel.2).1.filter
                  (fun e => decide (e.src = u.id))).length = 0 := by
              rw [List.length_eq_zero, List.filter_eq_nil_iff]
              intro e he
              have hsrc := memberEdges_src g u' sel.1 sel.2 e he
              simp only [decide_eq_true_eq]
              intro hcon
              exact hnd.1 ⟨u, h1, hcon.symm.trans hsrc⟩
            have htail := ih _ tail hr hnd.2 u h1
            omega

/-- C3 counterexample: user-permission generation does not cap its sample
size to the entity pool.  With a single-user pool and a random stream drawing
`num_permissions = 2`, `random.sample(users, 2)` raises (modelled as `none`)
instead of silently capping to the pool size, so the claimed capping policy
fails for the user-permission operation. -/
theorem user_perm_sampling_uncapped_counterexample :
    generate_user_permission_edges (fun _ => 1) [⟨0, 0, 0, 0, 0, 0⟩]
      [⟨0, 0, (0, 0), 0, 0, 0, 0⟩] 0 = none := by decide

/-- C3 amended: only membership generation caps its sample size to the pool
(`random.randint(1, min(4, len(groups)))`): on any non-empty group pool the
membership operation never fails, and each user receives at most
`min 4 |groups|` membership edges — in particular at most 1 when the group
pool has size 1.  (User- and group-permission generation draw their sample
sizes uncapped; see the counterexample.) -/
theorem member_sampling_capped (g : Rng) (users : List User) (groups : List Group)
    (pos : ℕ) (hg : groups ≠ []) (hnd : (users.map User.id).Nodup) :
    (∃ out, generate_member_of_edges g users groups pos = some out) ∧
    ∀ out, generate_member_of_edges g users groups pos = some out →
      ∀ u ∈ users,
        (out.1.filter (fun e => decide (e.src = u.id))).length ≤ min 4 groups.length := by
  constructor
  · exact genMemberOfAux_isSome g groups hg users pos
  · intro out h u hu
    exact genMemberOfAux_filter_le g groups users pos out h hnd u hu

/-- Witness for C3's amended claim: a single-group pool with one user; the
membership operation succeeds and the user receives at most
`min 4 1 = 1` membership edge. -/
theorem member_sampling_capped_witness :
    (([⟨5, 0, 0, 0, 0, 0⟩] : List User).map User.id).Nodup ∧
    (([⟨0, 0, none, 0, 0, 1⟩] : List Group) ≠ []) ∧
    ((∃ out, generate_member_of_edges (fun _ => 0) [⟨5, 0, 0, 0, 0, 0⟩]
        [⟨0, 0, none, 0, 0, 1⟩] 0 = some out) ∧
      ∀ out, generate_member_of_edges (fun _ => 0) [⟨5, 0, 0, 0, 0, 0⟩]
          [⟨0, 0, none, 0, 0, 1⟩] 0 = some out →
        ∀ u ∈ ([⟨5, 0, 0, 0, 0, 0⟩] : List User),
          (out.1.filter (fun e => decide (e.src = u.id))).length ≤
            min 4 ([⟨0, 0, none, 0, 0, 1⟩] : List Group).length) :=
  ⟨by decide, by decide,
    member_sampling_capped (fun _ => 0) [⟨5, 0, 0, 0, 0, 0⟩] [⟨0, 0, none, 0, 0, 1⟩] 0
      (by decide) (by decide)⟩

/-! ## Inversion of a full generation run -/

theorem generateDataset_inv {g : Rng} {nu nr ng pos : ℕ} {ds : Dataset}
    (h : generateDataset g nu nr ng pos = some ds) :
    ds.users = (generate_users g nu pos).1 ∧
    ds.resources = (generate_resources g nr (generate_users g nu pos).2).1 ∧
    ds.groups =
      (generate_groups g ng (generate_resources g nr (generate_users g nu pos).2).2).1 ∧
    (∃ p1 out, generate_member_of_edges g ds.users ds.groups p1 = some out ∧
      ds.member_of = out.1) ∧
    (∃ p2 out, generate_user_permission_edges g ds.users ds.resources p2 = some out ∧
      ds.user_permissions = out.1) ∧
    (∃ p3 out, generate_group_permission_edges g ds.groups ds.resources p3 = some out ∧
      ds.group_permissions = out.1) ∧
    (∃ p4 out, generate_inherits_from_edges g ds.groups p4 = some out ∧
      ds.inherits_from = out.1) := by
  unfold generateDataset at h
  dsimp only at h
  split at h
  · cases h
  · rename_i mo hmo
    split at h
    · cases h
    · rename_i up hup
      split at h
      · cases h
      · rename_i gp hgp
        split at h
        · cases h
        · rename_i inh hinh
          obtain rfl := Option.some.inj h
          exact ⟨rfl, rfl, rfl, ⟨_, mo, hmo, rfl⟩, ⟨_, up, hup, rfl⟩,
            ⟨_, gp, hgp, rfl⟩, ⟨_, inh, hinh, rfl⟩⟩

/-- C5: in every generation run, a user-permission edge whose source user is
the owner of its target resource carries all four capability flags. -/
theorem owner_permission_full_flags (g : Rng) (nu nr ng pos : ℕ) (ds : Dataset)
    (h : generateDataset g nu nr ng pos = some ds) :
    ∀ e ∈ ds.user_permissions, ∀ r ∈ ds.resources, e.dst = r.id → e.src = r.owner_id →
      e.can_create = true ∧ e.can_read = true ∧ e.can_update = true ∧
        e.can_delete = true := by
  obtain ⟨hu, hr, hgrp, -, ⟨p2, up, hup, hperm⟩, -, -⟩ := generateDataset_inv h
  intro e he r hres hdst hown
  rw [hperm] at he
  obtain ⟨r0, hr0, u0, hu0, hsrc, hdst0, hgby, hts1, hts2, hflags⟩ :=
    genUserPermsAux_mem g ds.users ds.resources p2 up hup e he
  have hreq : r = r0 := by
    apply generate_resources_id_inj g nr (generate_users g nu pos).2
    · rw [← hr]; exact hres
    · rw [← hr]; exact hr0
    · rw [← hdst, hdst0]
  subst hreq
  exact hflags (by rw [← hsrc, hown])

theorem run0_eq : generateDataset (fun _ => 0) 1 1 2 0 = some ds0 := by decide

/-- Witness for C5 at the concrete run `ds0` (its single user-permission edge
is owner-authored and fully flagged). -/
theorem owner_permission_full_flags_witness :
    generateDataset (fun _ => 0) 1 1 2 0 = some ds0 ∧
    (∀ e ∈ ds0.user_permissions, ∀ r ∈ ds0.resources, e.dst = r.id → e.src = r.owner_id →
      e.can_create = true ∧ e.can_read = true ∧ e.can_update = true ∧
        e.can_delete = true) :=
  ⟨run0_eq, owner_permission_full_flags (fun _ => 0) 1 1 2 0 ds0 run0_eq⟩

/-- C9: in every generation run, each permission edge (user-to-resource and
group-to-resource) records `granted_by` equal to the owner of its target
resource. -/
theorem granted_by_is_owner (g : Rng) (nu nr ng pos : ℕ) (ds : Dataset)
    (h : generateDataset g nu nr ng pos = some ds) :
    (∀ e ∈ ds.user_permissions, ∀ r ∈ ds.resources, e.dst = r.id →
      e.granted_by = r.owner_id) ∧
    (∀ e ∈ ds.group_permissions, ∀ r ∈ ds.resources, e.dst = r.id →
      e.granted_by = r.owner_id) := by
  obtain ⟨hu, hr, hgrp, -, ⟨p2, up, hup, hperm⟩, ⟨p3, gp, hgp, hgperm⟩, -⟩ :=
    generateDataset_inv h
  constructor
  · intro e he r hres hdst
    rw [hperm] at he
    obtain ⟨r0, hr0, u0, hu0, hsrc, hdst0, hgby, hrest⟩ :=
      genUserPermsAux_mem g ds.users ds.resources p2 up hup e he
    have hreq : r = r0 := by
      apply generate_resources_id_inj g nr (generate_users g nu pos).2
      · rw [← hr]; exact hres
      · rw [← hr]; exact hr0
      · rw [← hdst, hdst0]
    subst hreq
    exact hgby
  · intro e he r hres hdst
    rw [hgperm] at he
    obtain ⟨r0, hr0, grp0, hgrp0, hsrc, hdst0, hgby, hrest⟩ :=
      genGroupPermsAux_mem g ds.groups ds.resources p3 gp hgp e he
    have hreq : r = r0 := by
      apply generate_resources_id_inj g nr (generate_users g nu pos).2
      · rw [← hr]; exact hres
      · rw [← hr]; exact hr0
      · rw [← hdst, hdst0]
    subst hreq
    exact hgby

/-- Witness for C9 at the concrete run `ds0`. -/
theorem granted_by_is_owner_witness :
    generateDataset (fun _ => 0) 1 1 2 0 = some ds0 ∧
    ((∀ e ∈ ds0.user_permissions, ∀ r ∈ ds0.resources, e.dst = r.id →
      e.granted_by = r.owner_id) ∧
    (∀ e ∈ ds0.group_permissions, ∀ r ∈ ds0.resources, e.dst = r.id →
      e.granted_by = r.owner_id)) :=
  ⟨run0_eq, granted_by_is_owner (fun _ => 0) 1 1 2 0 ds0 run0_eq⟩

theorem pairwise_take_drop {α : Type} {R : α → α → Prop} {l : List α}
    (h : l.Pairwise R) (k : ℕ) : ∀ a ∈ l.take k, ∀ b ∈ l.drop k, R a b := by
  have hsplit : (l.take k ++ l.drop k).Pairwise R := by
    rw [List.take_append_drop]
    exact h
  exact (List.pairwise_append.mp hsplit).2.2

theorem groups_map_id_nodup (g : Rng) (n pos : ℕ) :
    ((generate_groups g n pos).1.map Group.id).Nodup := by
  unfold generate_groups
  rw [genGroupsAux_ids]
  exact List.nodup_range' 0 n

/-- C6: in every generation run, each INHERITS_FROM edge has its child drawn
from the second half of the group list and its parent from the first half,
and the inheritance relation admits no cycle of any length (its transitive
closure is irreflexive). -/
theorem inherits_structurally_acyclic (g : Rng) (nu nr ng pos : ℕ) (ds : Dataset)
    (h : generateDataset g nu nr ng pos = some ds) :
    (∀ e ∈ ds.inherits_from,
      (∃ c ∈ ds.groups.drop (ds.groups.length / 2), e.src = c.id) ∧
      (∃ p ∈ ds.groups.take (ds.groups.length / 2), e.dst = p.id)) ∧
    ∀ a, ¬ Relation.TransGen (inheritsRel ds.inherits_from) a a := by
  obtain ⟨-, -, hgrp, -, -, -, ⟨p4, inh, hinh, hedges⟩⟩ := generateDataset_inv h
  rw [generate_inherits_from_edges] at hinh
  have hpw : ds.groups.Pairwise (fun a b => a.id < b.id) := by
    rw [hgrp]
    exact generate_groups_id_pairwise g ng _
  have hlt := pairwise_take_drop hpw (ds.groups.length / 2)
  have hmem := genInheritsAux_mem g _ _ p4 inh hinh
  have hedge : ∀ e ∈ ds.inherits_from,
      (∃ c ∈ ds.groups.drop (ds.groups.length / 2), e.src = c.id) ∧
      (∃ p ∈ ds.groups.take (ds.groups.length / 2), e.dst = p.id) := by
    intro e he
    rw [hedges] at he
    obtain ⟨c, hc, p, hp, hsrc, hdst, h5, h6⟩ := hmem e he
    exact ⟨⟨c, hc, hsrc⟩, ⟨p, hp, hdst⟩⟩
  refine ⟨hedge, ?_⟩
  intro a hcyc
  have hdec : ∀ x y, inheritsRel ds.inherits_from x y → y < x := by
    intro x y hxy
    obtain ⟨e, he, hsx, hdy⟩ := hxy
    obtain ⟨⟨c, hc, hsrc⟩, ⟨p, hp, hdst⟩⟩ := hedge e he
    have := hlt p hp c hc
    omega
  have key : ∀ x y, Relation.TransGen (inheritsRel ds.inherits_from) x y → y < x := by
    intro x y hxy
    induction hxy with
    | single h1 => exact hdec _ _ h1
    | tail h1 h2 ih => exact lt_trans (hdec _ _ h2) ih
  exact lt_irrefl a (key a a hcyc)

/-- Witness for C6 at the concrete run `ds0` (its single inheritance edge
points from the second-half group 1 to the first-half group 0). -/
theorem inherits_structurally_acyclic_witness :
    generateDataset (fun _ => 0) 1 1 2 0 = some ds0 ∧
    ((∀ e ∈ ds0.inherits_from,
      (∃ c ∈ ds0.groups.drop (ds0.groups.length / 2), e.src = c.id) ∧
      (∃ p ∈ ds0.groups.take (ds0.groups.length / 2), e.dst = p.id)) ∧
    ∀ a, ¬ Relation.TransGen (inheritsRel ds0.inherits_from) a a) :=
  ⟨run0_eq, inherits_structurally_acyclic (fun _ => 0) 1 1 2 0 ds0 run0_eq⟩

/-- C10: in every generation run, no group is the child of two INHERITS_FROM
edges, no parent of an edge is itself a child of one, and consequently the
transitive closure of the inheritance relation coincides with the relation
itself — every inheritance chain has length exactly 1. -/
theorem inherits_forest_depth_one (g : Rng) (nu nr ng pos : ℕ) (ds : Dataset)
    (h : generateDataset g nu nr ng pos = some ds) :
    (ds.inherits_from.map InheritEdge.src).Nodup ∧
    (∀ e1 ∈ ds.inherits_from, ∀ e2 ∈ ds.inherits_from, e1.dst ≠ e2.src) ∧
    (∀ a b, Relation.TransGen (inheritsRel ds.inherits_from) a b →
      inheritsRel ds.inherits_from a b) := by
  obtain ⟨-, -, hgrp, -, -, -, ⟨p4, inh, hinh, hedges⟩⟩ := generateDataset_inv h
  rw [generate_inherits_from_edges] at hinh
  have hpw : ds.groups.Pairwise (fun a b => a.id < b.id) := by
    rw [hgrp]
    exact generate_groups_id_pairwise g ng _
  have hlt := pairwise_take_drop hpw (ds.groups.length / 2)
  have hmem := genInheritsAux_mem g _ _ p4 inh hinh
  have hidnodup : (ds.groups.map Group.id).Nodup := by
    rw [hgrp]
    exact groups_map_id_nodup g ng _
  have hnodup : (ds.inherits_from.map InheritEdge.src).Nodup := by
    rw [hedges]
    refine List.Nodup.sublist (genInheritsAux_srcs_sublist g _ _ p4 inh hinh) ?_
    rw [List.map_drop]
    exact hidnodup.sublist (List.drop_sublist _ _)
  have hne : ∀ e1 ∈ ds.inherits_from, ∀ e2 ∈ ds.inherits_from, e1.dst ≠ e2.src := by
    intro e1 he1 e2 he2
    rw [hedges] at he1 he2
    obtain ⟨c1, hc1, p1, hp1, hs1, hd1, h5, h6⟩ := hmem e1 he1
    obtain ⟨c2, hc2, p2, hp2, hs2, hd2, h7, h8⟩ := hmem e2 he2
    have := hlt p1 hp1 c2 hc2
    omega
  refine ⟨hnodup, hne, ?_⟩
  intro a b h1
  induction h1 with
  | single h2 => exact h2
  | tail h1 h2 ih =>
    obtain ⟨e1, he1, hs1, hd1⟩ := ih
    obtain ⟨e2, he2, hs2, hd2⟩ := h2
    exact absurd (by rw [hd1, ← hs2] : e1.dst = e2.src) (hne e1 he1 e2 he2)

/-- Witness for C10 at the concrete run `ds0`. -/
theorem inherits_forest_depth_one_witness :
    generateDataset (fun _ => 0) 1 1 2 0 = some ds0 ∧
    ((ds0.inherits_from.map InheritEdge.src).Nodup ∧
    (∀ e1 ∈ ds0.inherits_from, ∀ e2 ∈ ds0.inherits_from, e1.dst ≠ e2.src) ∧
    (∀ a b, Relation.TransGen (inheritsRel ds0.inherits_from) a b →
      inheritsRel ds0.inherits_from a b)) :=
  ⟨run0_eq, inherits_forest_depth_one (fun _ => 0) 1 1 2 0 ds0 run0_eq⟩

/-- C7: in every generation run, each edge's timestamp (`joined_at` /
`granted_at` / `created_at`) is at least the creation timestamp of each of
its endpoint nodes. -/
theorem edge_timestamps_after_endpoints (g : Rng) (nu nr ng pos : ℕ) (ds : Dataset)
    (h : generateDataset g nu nr ng pos = some ds) :
    (∀ e ∈ ds.member_of, ∀ u ∈ ds.users, e.src = u.id → u.created_at ≤ e.joined_at) ∧
    (∀ e ∈ ds.member_of, ∀ grp ∈ ds.groups, e.dst = grp.id →
      grp.created_at ≤ e.joined_at) ∧
    (∀ e ∈ ds.user_permissions, ∀ u ∈ ds.users, e.src = u.id →
      u.created_at ≤ e.granted_at) ∧
    (∀ e ∈ ds.user_permissions, ∀ r ∈ ds.resources, e.dst = r.id →
      r.created_at ≤ e.granted_at) ∧
    (∀ e ∈ ds.group_permissions, ∀ grp ∈ ds.groups, e.src = grp.id →
      grp.created_at ≤ e.granted_at) ∧
    (∀ e ∈ ds.group_permissions, ∀ r ∈ ds.resources, e.dst = r.id →
      r.created_at ≤ e.granted_at) ∧
    (∀ e ∈ ds.inherits_from, ∀ grp ∈ ds.groups, e.src = grp.id ∨ e.dst = grp.id →
      grp.created_at ≤ e.created_at) := by
  obtain ⟨hu, hr, hgrp, ⟨p1, mo, hmo, hmo1⟩, ⟨p2, up, hup, hup1⟩,
    ⟨p3, gp, hgp, hgp1⟩, ⟨p4, inh, hinh, hinh1⟩⟩ := generateDataset_inv h
  have useri : ∀ u ∈ ds.users, ∀ v ∈ ds.users, u.id = v.id → u = v := by
    rw [hu]
    exact generate_users_id_inj g nu pos
  have resi : ∀ u ∈ ds.resources, ∀ v ∈ ds.resources, u.id = v.id → u = v := by
    rw [hr]
    exact generate_resources_id_inj g nr _
  have grpi : ∀ u ∈ ds.groups, ∀ v ∈ ds.groups, u.id = v.id → u = v := by
    rw [hgrp]
    exact generate_groups_id_inj g ng _
  refine ⟨?_, ?_, ?_, ?_, ?_, ?_, ?_⟩
  · intro e he u hu2 hsrc
    rw [hmo1] at he
    obtain ⟨u0, hu0, grp0, hg0, hs0, hd0, ht1, ht2⟩ :=
      genMemberOfAux_mem g ds.groups ds.users p1 mo hmo e he
    have : u = u0 := useri u hu2 u0 hu0 (by rw [← hsrc, hs0])
    rw [this]
    exact ht1
  · intro e he grp hg2 hdst
    rw [hmo1] at he
    obtain ⟨u0, hu0, grp0, hg0, hs0, hd0, ht1, ht2⟩ :=
      genMemberOfAux_mem g ds.groups ds.users p1 mo hmo e he
    have : grp = grp0 := grpi grp hg2 grp0 hg0 (by rw [← hdst, hd0])
    rw [this]
    exact ht2
  · intro e he u hu2 hsrc
    rw [hup1] at he
    obtain ⟨r0, hr0, u0, hu0, hs0, hd0, hgb, ht1, ht2, hfl⟩ :=
      genUserPermsAux_mem g ds.users ds.resources p2 up hup e he
    have : u = u0 := useri u hu2 u0 hu0 (by rw [← hsrc, hs0])
    rw [this]
    exact ht1
  · intro e he r hr2 hdst
    rw [hup1] at he
    obtain ⟨r0, hr0, u0, hu0, hs0, hd0, hgb, ht1, ht2, hfl⟩ :=
      genUserPermsAux_mem g ds.users ds.resources p2 up hup e he
    have : r = r0 := resi r hr2 r0 hr0 (by rw [← hdst, hd0])
    rw [this]
    exact ht2
  · intro e he grp hg2 hsrc
    rw [hgp1] at he
    obtain ⟨r0, hr0, grp0, hg0, hs0, hd0, hgb, ht1, ht2⟩ :=
      genGroupPermsAux_mem g ds.groups ds.resources p3 gp hgp e he
    have : grp = grp0 := grpi grp hg2 grp0 hg0 (by rw [← hsrc, hs0])
    rw [this]
    exact ht1
  · intro e he r hr2 hdst
    rw [hgp1] at he
    obtain ⟨r0, hr0, grp0, hg0, hs0, hd0, hgb, ht1, ht2⟩ :=
      genGroupPermsAux_mem g ds.groups ds.resources p3 gp hgp e he
    have : r = r0 := resi r hr2 r0 hr0 (by rw [← hdst, hd0])
    rw [this]
    exact ht2
  · intro e he grp hg2 hid
    rw [generate_inherits_from_edges] at hinh
    rw [hinh1] at he
    obtain ⟨c0, hc0, pp0, hp0, hs0, hd0, ht1, ht2⟩ :=
      genInheritsAux_mem g _ _ p4 inh hinh e he
    have hcmem : c0 ∈ ds.groups := (List.drop_sublist _ _).subset hc0
    have hpmem : pp0 ∈ ds.groups := (List.take_sublist _ _).subset hp0
    rcases hid with hsrc | hdst
    · have : grp = c0 := grpi grp hg2 c0 hcmem (by rw [← hsrc, hs0])
      rw [this]
      exact ht1
    · have : grp = pp0 := grpi grp hg2 pp0 hpmem (by rw [← hdst, hd0])
      rw [this]
      exact ht2

/-- Witness for C7 at the concrete run `ds0`. -/
theorem edge_timestamps_after_endpoints_witness :
    generateDataset (fun _ => 0) 1 1 2 0 = some ds0 ∧
    ((∀ e ∈ ds0.member_of, ∀ u ∈ ds0.users, e.src = u.id →
      u.created_at ≤ e.joined_at) ∧
    (∀ e ∈ ds0.member_of, ∀ grp ∈ ds0.groups, e.dst = grp.id →
      grp.created_at ≤ e.joined_at) ∧
    (∀ e ∈ ds0.user_permissions, ∀ u ∈ ds0.users, e.src = u.id →
      u.created_at ≤ e.granted_at) ∧
    (∀ e ∈ ds0.user_permissions, ∀ r ∈ ds0.resources, e.dst = r.id →
      r.created_at ≤ e.granted_at) ∧
    (∀ e ∈ ds0.group_permissions, ∀ grp ∈ ds0.groups, e.src = grp.id →
      grp.created_at ≤ e.granted_at) ∧
    (∀ e ∈ ds0.group_permissions, ∀ r ∈ ds0.resources, e.dst = r.id →
      r.created_at ≤ e.granted_at) ∧
    (∀ e ∈ ds0.inherits_from, ∀ grp ∈ ds0.groups, e.src = grp.id ∨ e.dst = grp.id →
      grp.created_at ≤ e.created_at)) :=
  ⟨run0_eq, edge_timestamps_after_endpoints (fun _ => 0) 1 1 2 0 ds0 run0_eq⟩

/-! ## Determinism infrastructure: a run reads the stream only at or after
its starting cursor, so two streams agreeing from the cursor onward produce
identical output. -/

theorem agreeFrom_mono {g1 g2 : Rng} {pos pos' : ℕ} (h : agreeFrom g1 g2 pos)
    (hle : pos ≤ pos') : agreeFrom g1 g2 pos' :=
  fun p hp => h p (le_trans hle hp)

theorem dtBetween_agree {g1 g2 : Rng} {pos : ℕ} (h : agreeFrom g1 g2 pos) (lo hi : ℕ) :
    dtBetween g1 lo hi pos = dtBetween g2 lo hi pos := by
  unfold dtBetween
  rw [h pos le_rfl]

theorem randQ_agree {g1 g2 : Rng} {pos : ℕ} (h : agreeFrom g1 g2 pos) :
    randQ g1 pos = randQ g2 pos := by
  unfold randQ
  rw [h pos le_rfl]

theorem randintO_agree {g1 g2 : Rng} {pos : ℕ} (h : agreeFrom g1 g2 pos) (a b : ℕ) :
    randintO g1 a b pos = randintO g2 a b pos := by
  unfold randintO
  rw [h pos le_rfl]

theorem choiceO_agree {α : Type} {g1 g2 : Rng} {pos : ℕ} (h : agreeFrom g1 g2 pos)
    (l : List α) : choiceO g1 l pos = choiceO g2 l pos := by
  unfold choiceO
  simp only [h pos le_rfl]

theorem ownerOr_agree {g1 g2 : Rng} {pos : ℕ} (h : agreeFrom g1 g2 pos) (b : Bool) (p : ℚ) :
    ownerOr g1 b p pos = ownerOr g2 b p pos ∧ pos ≤ (ownerOr g1 b p pos).2 := by
  unfold ownerOr
  cases b with
  | true => exact ⟨rfl, le_rfl⟩
  | false =>
    rw [randQ_agree h]
    exact ⟨rfl, by simp [randQ]⟩

theorem sampleAux_agree {α : Type} (g1 g2 : Rng) :
    ∀ (k : ℕ) (l : List α) (pos : ℕ), agreeFrom g1 g2 pos →
      sampleAux g1 k l pos = sampleAux g2 k l pos ∧ pos ≤ (sampleAux g1 k l pos).2 := by
  intro k
  induction k with
  | zero => intro l pos h; exact ⟨rfl, le_rfl⟩
  | succ k ih =>
    intro l pos h
    rw [sampleAux, sampleAux]
    by_cases hl : 0 < l.length
    · rw [dif_pos hl, dif_pos hl]
      have hg : g1 pos = g2 pos := h pos le_rfl
      obtain ⟨ih1, ih2⟩ := ih (l.eraseIdx (g2 pos % l.length)) (pos + 1)
        (agreeFrom_mono h (by omega))
      rw [ih1] at ih2
      constructor
      · simp only [hg, ih1]
      · dsimp only
        rw [hg, ih1]
        omega
    · rw [dif_neg hl, dif_neg hl]
      exact ⟨rfl, le_rfl⟩

theorem sampleO_agree {α : Type} {g1 g2 : Rng} {pos : ℕ} (h : agreeFrom g1 g2 pos)
    (l : List α) (k : ℕ) :
    sampleO g1 l k pos = sampleO g2 l k pos ∧
      ∀ out, sampleO g1 l k pos = some out → pos ≤ out.2 := by
  unfold sampleO
  by_cases hk : k ≤ l.length
  · rw [if_pos hk, if_pos hk]
    obtain ⟨h1, h2⟩ := sampleAux_agree g1 g2 k l pos h
    rw [h1]
    refine ⟨rfl, ?_⟩
    intro out hout
    obtain rfl := Option.some.inj hout
    rw [h1] at h2
    exact h2
  · rw [if_neg hk, if_neg hk]
    exact ⟨rfl, fun out hout => by cases hout⟩

theorem randintO_snd {g : Rng} {a b pos : ℕ} {out : ℕ × ℕ}
    (h : randintO g a b pos = some out) : out.2 = pos + 1 := by
  unfold randintO at h
  split at h
  · obtain rfl := Option.some.inj h
    rfl
  · cases h

theorem choiceO_snd {α : Type} {g : Rng} {l : List α} {pos : ℕ} {out : α × ℕ}
    (h : choiceO g l pos = some out) : out.2 = pos + 1 := by
  unfold choiceO at h
  split at h
  · obtain rfl := Option.some.inj h
    rfl
  · cases h

theorem sampleAux_pos_le {α : Type} (g : Rng) :
    ∀ (k : ℕ) (l : List α) (pos : ℕ), pos ≤ (sampleAux g k l pos).2 := by
  intro k
  induction k with
  | zero => intro l pos; exact le_rfl
  | succ k ih =>
    intro l pos
    rw [sampleAux]
    by_cases hl : 0 < l.length
    · rw [dif_pos hl]
      have := ih (l.eraseIdx (g pos % l.length)) (pos + 1)
      dsimp only
      omega
    · rw [dif_neg hl]

theorem sampleO_snd_le {α : Type} {g : Rng} {l : List α} {k pos : ℕ} {out : List α × ℕ}
    (h : sampleO g l k pos = some out) : pos ≤ out.2 := by
  unfold sampleO at h
  split at h
  · obtain rfl := Option.some.inj h
    exact sampleAux_pos_le g k l pos
  · cases h

theorem ownerOr_pos_le (g : Rng) (b : Bool) (p : ℚ) (pos : ℕ) :
    pos ≤ (ownerOr g b p pos).2 := by
  unfold ownerOr
  cases b with
  | true => exact le_rfl
  | false => simp [randQ]

theorem memberEdges_pos_le (g : Rng) (u : User) :
    ∀ (sel : List Group) (pos : ℕ), pos ≤ (memberEdges g u sel pos).2 := by
  intro sel
  induction sel with
  | nil => intro pos; exact le_rfl
  | cons grp rest ih =>
    intro pos
    rw [memberEdges]
    dsimp only [dtBetween]
    have := ih (pos + 1 + 1)
    omega

theorem memberEdges_agree (g1 g2 : Rng) (u : User) :
    ∀ (sel : List Group) (pos : ℕ), agreeFrom g1 g2 pos →
      memberEdges g1 u sel pos = memberEdges g2 u sel pos := by
  intro sel
  induction sel with
  | nil => intro pos h; rfl
  | cons grp rest ih =>
    intro pos h
    rw [memberEdges, memberEdges]
    dsimp only [dtBetween]
    rw [h pos le_rfl, h (pos + 1) (by omega),
      ih (pos + 1 + 1) (agreeFrom_mono h (by omega))]

theorem userPermEdges_pos_le (g : Rng) (r : Resource) :
    ∀ (sel : List User) (pos : ℕ), pos ≤ (userPermEdges g r sel pos).2 := by
  intro sel
  induction sel with
  | nil => intro pos; exact le_rfl
  | cons u rest ih =>
    intro pos
    rw [userPermEdges]
    dsimp only [dtBetween]
    set c := ownerOr g (decide (u.id = r.owner_id)) (mkRat 3 10) (pos + 1) with hc
    set rd := ownerOr g (decide (u.id = r.owner_id)) (mkRat 9 10) c.2 with hrd
    set up := ownerOr g (decide (u.id = r.owner_id)) (mkRat 5 10) rd.2 with hup
    set d := ownerOr g (decide (u.id = r.owner_id)) (mkRat 2 10) up.2 with hd
    have h1 : pos + 1 ≤ c.2 := by rw [hc]; exact ownerOr_pos_le g _ _ _
    have h2 : c.2 ≤ rd.2 := by rw [hrd]; exact ownerOr_pos_le g _ _ _
    have h3 : rd.2 ≤ up.2 := by rw [hup]; exact ownerOr_pos_le g _ _ _
    have h4 : up.2 ≤ d.2 := by rw [hd]; exact ownerOr_pos_le g _ _ _
    have h5 := ih d.2
    omega

theorem userPermEdges_agree (g1 g2 : Rng) (r : Resource) :
    ∀ (sel : List User) (pos : ℕ), agreeFrom g1 g2 pos →
      userPermEdges g1 r sel pos = userPermEdges g2 r sel pos := by
  intro sel
  induction sel with
  | nil => intro pos h; rfl
  | cons u rest ih =>
    intro pos h
    rw [userPermEdges, userPermEdges]
    dsimp only [dtBetween]
    rw [h pos le_rfl]
    obtain ⟨e1, -⟩ := ownerOr_agree (agreeFrom_mono h (by omega : pos ≤ pos + 1))
      (decide (u.id = r.owner_id)) (mkRat 3 10)
    rw [e1]
    set c := ownerOr g2 (decide (u.id = r.owner_id)) (mkRat 3 10) (pos + 1) with hc
    have hcge : pos ≤ c.2 := by
      rw [hc]
      have := ownerOr_pos_le g2 (decide (u.id = r.owner_id)) (mkRat 3 10) (pos + 1)
      omega
    obtain ⟨e2, -⟩ := ownerOr_agree (agreeFrom_mono h hcge)
      (decide (u.id = r.owner_id)) (mkRat 9 10)
    rw [e2]
    set rd := ownerOr g2 (decide (u.id = r.owner_id)) (mkRat 9 10) c.2 with hrd
    have hrdge : pos ≤ rd.2 := by
      rw [hrd]
      have := ownerOr_pos_le g2 (decide (u.id = r.owner_id)) (mkRat 9 10) c.2
      omega
    obtain ⟨e3, -⟩ := ownerOr_agree (agreeFrom_mono h hrdge)
      (decide (u.id = r.owner_id)) (mkRat 5 10)
    rw [e3]
    set up := ownerOr g2 (decide (u.id = r.owner_id)) (mkRat 5 10) rd.2 with hup
    have hupge : pos ≤ up.2 := by
      rw [hup]
      have := ownerOr_pos_le g2 (decide (u.id = r.owner_id)) (mkRat 5 10) rd.2
      omega
    obtain ⟨e4, -⟩ := ownerOr_agree (agreeFrom_mono h hupge)
      (decide (u.id = r.owner_id)) (mkRat 2 10)
    rw [e4]
    set d := ownerOr g2 (decide (u.id = r.owner_id)) (mkRat 2 10) up.2 with hd
    have hdge : pos ≤ d.2 := by
      rw [hd]
      have := ownerOr_pos_le g2 (decide (u.id = r.owner_id)) (mkRat 2 10) up.2
      omega
    rw [ih d.2 (agreeFrom_mono h hdge)]

theorem groupPermEdges_pos_le (g : Rng) (r : Resource) :
    ∀ (sel : List Group) (pos : ℕ), pos ≤ (groupPermEdges g r sel pos).2 := by
  intro sel
  induction sel with
  | nil => intro pos; exact le_rfl
  | cons grp rest ih =>
    intro pos
    rw [groupPermEdges]
    dsimp only [dtBetween, randQ]
    have := ih (pos + 1 + 1 + 1 + 1 + 1)
    omega

theorem groupPermEdges_agree (g1 g2 : Rng) (r : Resource) :
    ∀ (sel : List Group) (pos : ℕ), agreeFrom g1 g2 pos →
      groupPermEdges g1 r sel pos = groupPermEdges g2 r sel pos := by
  intro sel
  induction sel with
  | nil => intro pos h; rfl
  | cons grp rest ih =>
    intro pos h
    rw [groupPermEdges, groupPermEdges]
    dsimp only [dtBetween, randQ]
    rw [h pos le_rfl, h (pos + 1) (by omega), h (pos + 1 + 1) (by omega),
      h (pos + 1 + 1 + 1) (by omega), h (pos + 1 + 1 + 1 + 1) (by omega),
      ih (pos + 1 + 1 + 1 + 1 + 1) (agreeFrom_mono h (by omega))]

theorem genUsersAux_agree (g1 g2 : Rng) :
    ∀ (n i pos : ℕ), agreeFrom g1 g2 pos →
      genUsersAux g1 i n pos = genUsersAux g2 i n pos ∧
        pos ≤ (genUsersAux g1 i n pos).2 := by
  intro n
  induction n with
  | zero => intro i pos h; exact ⟨rfl, le_rfl⟩
  | succ n ih =>
    intro i pos h
    rw [genUsersAux, genUsersAux]
    dsimp only [dtBetween]
    obtain ⟨ih1, ih2⟩ := ih (i + 1) (pos + 1 + 4) (agreeFrom_mono h (by omega))
    rw [ih1] at ih2
    rw [h pos le_rfl, h (pos + 1) (by omega), h (pos + 1 + 1) (by omega),
      h (pos + 1 + 2) (by omega), h (pos + 1 + 3) (by omega), ih1]
    exact ⟨rfl, by omega⟩

theorem resourceName_agree {g1 g2 : Rng} {pos : ℕ} (h : agreeFrom g1 g2 pos) (rtype : ℕ) :
    resourceName g1 rtype pos = resourceName g2 rtype pos ∧
      pos ≤ (resourceName g1 rtype pos).2 := by
  unfold resourceName
  by_cases h3 : rtype = 3
  · rw [if_pos h3, if_pos h3, h pos le_rfl]
    exact ⟨rfl, by omega⟩
  · rw [if_neg h3, if_neg h3]
    by_cases h4 : rtype = 4
    · rw [if_pos h4, if_pos h4, h pos le_rfl, h (pos + 1) (by omega)]
      exact ⟨rfl, by omega⟩
    · rw [if_neg h4, if_neg h4, h pos le_rfl, h (pos + 1) (by omega)]
      exact ⟨rfl, by omega⟩

theorem genResourcesAux_agree (g1 g2 : Rng) (numResources : ℕ) :
    ∀ (n i pos : ℕ), agreeFrom g1 g2 pos →
      genResourcesAux g1 numResources i n pos = genResourcesAux g2 numResources i n pos ∧
        pos ≤ (genResourcesAux g1 numResources i n pos).2 := by
  intro n
  induction n with
  | zero => intro i pos h; exact ⟨rfl, le_rfl⟩
  | succ n ih =>
    intro i pos h
    rw [genResourcesAux, genResourcesAux]
    dsimp only [dtBetween]
    rw [h pos le_rfl]
    obtain ⟨hn1, hn2⟩ := resourceName_agree (agreeFrom_mono h (by omega : pos ≤ pos + 1 + 1))
      (g2 pos % 5)
    rw [hn1] at hn2
    rw [hn1]
    set nm := resourceName g2 (g2 pos % 5) (pos + 1 + 1) with hnm
    have hge : pos ≤ nm.2 := by omega
    obtain ⟨ih1, ih2⟩ := ih (i + 1) (nm.2 + 3) (agreeFrom_mono h (by omega))
    rw [ih1] at ih2
    rw [h (pos + 1) (by omega), h nm.2 hge, h (nm.2 + 1) (by omega),
      h (nm.2 + 2) (by omega), ih1]
    exact ⟨rfl, by omega⟩

theorem genGroupsAux_agree (g1 g2 : Rng) :
    ∀ (n i pos : ℕ), agreeFrom g1 g2 pos →
      genGroupsAux g1 i n pos = genGroupsAux g2 i n pos ∧
        pos ≤ (genGroupsAux g1 i n pos).2 := by
  intro n
  induction n with
  | zero => intro i pos h; exact ⟨rfl, le_rfl⟩
  | succ n ih =>
    intro i pos h
    rw [genGroupsAux, genGroupsAux]
    dsimp only [dtBetween, randQ]
    rw [h pos le_rfl, h (pos + 1) (by omega)]
    by_cases hc : mkRat (g2 (pos + 1) % 1000) 1000 < mkRat 3 10
    · rw [if_pos hc, if_pos hc]
      dsimp only
      obtain ⟨ih1, ih2⟩ := ih (i + 1) (pos + 1 + 1 + 2 + 2) (agreeFrom_mono h (by omega))
      rw [ih1] at ih2
      rw [h (pos + 1 + 1) (by omega), h (pos + 1 + 1 + 1) (by omega),
        h (pos + 1 + 1 + 2) (by omega), h (pos + 1 + 1 + 2 + 1) (by omega), ih1]
      exact ⟨rfl, by omega⟩
    · rw [if_neg hc, if_neg hc]
      dsimp only
      obtain ⟨ih1, ih2⟩ := ih (i + 1) (pos + 1 + 1 + 1 + 2) (agreeFrom_mono h (by omega))
      rw [ih1] at ih2
      rw [h (pos + 1 + 1) (by omega), h (pos + 1 + 1 + 1) (by omega),
        h (pos + 1 + 1 + 1 + 1) (by omega), ih1]
      exact ⟨rfl, by omega⟩

theorem genMemberOfAux_pos_le (g : Rng) (groups : List Group) :
    ∀ (users : List User) (pos : ℕ) (out : List MemberEdge × ℕ),
      genMemberOfAux g groups users pos = some out → pos ≤ out.2 := by
  intro users
  induction users with
  | nil => intro pos out h; obtain rfl := Option.some.inj h; exact le_rfl
  | cons u rest ih =>
    intro pos out h
    rw [genMemberOfAux] at h
    split at h
    · cases h
    · rename_i k hk
      split at h
      · cases h
      · rename_i sel hs
        dsimp only at h
        split at h
        · cases h
        · rename_i tail hr
          obtain rfl := Option.some.inj h
          have h1 : k.2 = pos + 1 := randintO_snd hk
          have h2 : k.2 ≤ sel.2 := sampleO_snd_le hs
          have h3 : sel.2 ≤ (memberEdges g u sel.1 sel.2).2 :=
            memberEdges_pos_le g u sel.1 sel.2
          have h4 := ih _ _ hr
          dsimp only
          omega

theorem genMemberOfAux_agree (g1 g2 : Rng) (groups : List Group) :
    ∀ (users : List User) (pos : ℕ), agreeFrom g1 g2 pos →
      genMemberOfAux g1 groups users pos = genMemberOfAux g2 groups users pos := by
  intro users
  induction users with
  | nil => intro pos h; rfl
  | cons u rest ih =>
    intro pos h
    rw [genMemberOfAux, genMemberOfAux, ← randintO_agree h 1 (min 4 groups.length)]
    split
    · rfl
    · rename_i k hk
      have hk2 : k.2 = pos + 1 := randintO_snd hk
      have hagk : agreeFrom g1 g2 k.2 := agreeFrom_mono h (by omega)
      rw [← (sampleO_agree hagk groups k.1).1]
      split
      · rfl
      · rename_i sel hs
        have hsel : k.2 ≤ sel.2 := sampleO_snd_le hs
        have hagsel : agreeFrom g1 g2 sel.2 := agreeFrom_mono h (by omega)
        dsimp only
        rw [memberEdges_agree g1 g2 u sel.1 sel.2 hagsel]
        have hme : sel.2 ≤ (memberEdges g2 u sel.1 sel.2).2 :=
          memberEdges_pos_le g2 u sel.1 sel.2
        rw [ih ((memberEdges g2 u sel.1 sel.2).2) (agreeFrom_mono h (by omega))]

theorem genUserPermsAux_pos_le (g : Rng) (users : List User) :
    ∀ (resources : List Resource) (pos : ℕ) (out : List PermEdge × ℕ),
      genUserPermsAux g users resources pos = some out → pos ≤ out.2 := by
  intro resources
  induction resources with
  | nil => intro pos out h; obtain rfl := Option.some.inj h; exact le_rfl
  | cons r rest ih =>
    intro pos out h
    rw [genUserPermsAux] at h
    split at h
    · cases h
    · rename_i k hk
      split at h
      · cases h
      · rename_i sel hs
        dsimp only at h
        split at h
        · cases h
        · rename_i tail hr
          obtain rfl := Option.some.inj h
          have h1 : k.2 = pos + 1 := randintO_snd hk
          have h2 : k.2 ≤ sel.2 := sampleO_snd_le hs
          have h3 : sel.2 ≤ (userPermEdges g r sel.1 sel.2).2 :=
            userPermEdges_pos_le g r sel.1 sel.2
          have h4 := ih _ _ hr
          dsimp only
          omega

theorem genUserPermsAux_agree (g1 g2 : Rng) (users : List User) :
    ∀ (resources : List Resource) (pos : ℕ), agreeFrom g1 g2 pos →
      genUserPermsAux g1 users resources pos = genUserPermsAux g2 users resources pos := by
  intro resources
  induction resources with
  | nil => intro pos h; rfl
  | cons r rest ih =>
    intro pos h
    rw [genUserPermsAux, genUserPermsAux, ← randintO_agree h 1 5]
    split
    · rfl
    · rename_i k hk
      have hk2 : k.2 = pos + 1 := randintO_snd hk
      have hagk : agreeFrom g1 g2 k.2 := agreeFrom_mono h (by omega)
      rw [← (sampleO_agree hagk users k.1).1]
      split
      · rfl
      · rename_i sel hs
        have hsel : k.2 ≤ sel.2 := sampleO_snd_le hs
        have hagsel : agreeFrom g1 g2 sel.2 := agreeFrom_mono h (by omega)
        dsimp only
        rw [userPermEdges_agree g1 g2 r sel.1 sel.2 hagsel]
        have hme : sel.2 ≤ (userPermEdges g2 r sel.1 sel.2).2 :=
          userPermEdges_pos_le g2 r sel.1 sel.2
        rw [ih ((userPermEdges g2 r sel.1 sel.2).2) (agreeFrom_mono h (by omega))]

theorem genGroupPermsAux_pos_le (g : Rng) (groups : List Group) :
    ∀ (resources : List Resource) (pos : ℕ) (out : List PermEdge × ℕ),
      genGroupPermsAux g groups resources pos = some out → pos ≤ out.2 := by
  intro resources
  induction resources with
  | nil => intro pos out h; obtain rfl := Option.some.inj h; exact le_rfl
  | cons r rest ih =>
    intro pos out h
    rw [genGroupPermsAux] at h
    split at h
    · cases h
    · rename_i k hk
      have h1 : k.2 = pos + 1 := randintO_snd hk
      split at h
      · have h4 := ih _ _ h
        omega
      · split at h
        · cases h
        · rename_i sel hs
          dsimp only at h
          split at h
          · cases h
          · rename_i tail hr
            obtain rfl := Option.some.inj h
            have h2 : k.2 ≤ sel.2 := sampleO_snd_le hs
            have h3 : sel.2 ≤ (groupPermEdges g r sel.1 sel.2).2 :=
              groupPermEdges_pos_le g r sel.1 sel.2
            have h4 := ih _ _ hr
            dsimp only
            omega

theorem genGroupPermsAux_agree (g1 g2 : Rng) (groups : List Group) :
    ∀ (resources : List Resource) (pos : ℕ), agreeFrom g1 g2 pos →
      genGroupPermsAux g1 groups resources pos = genGroupPermsAux g2 groups resources pos := by
  intro resources
  induction resources with
  | nil => intro pos h; rfl
  | cons r rest ih =>
    intro pos h
    rw [genGroupPermsAux, genGroupPermsAux, ← randintO_agree h 0 3]
    split
    · rfl
    · rename_i k hk
      have hk2 : k.2 = pos + 1 := randintO_snd hk
      have hagk : agreeFrom g1 g2 k.2 := agreeFrom_mono h (by omega)
      by_cases hk0 : k.1 = 0
      · rw [if_pos hk0, if_pos hk0, ih k.2 hagk]
      · rw [if_neg hk0, if_neg hk0, ← (sampleO_agree hagk groups k.1).1]
        split
        · rfl
        · rename_i sel hs
          have hsel : k.2 ≤ sel.2 := sampleO_snd_le hs
          have hagsel : agreeFrom g1 g2 sel.2 := agreeFrom_mono h (by omega)
          dsimp only
          rw [groupPermEdges_agree g1 g2 r sel.1 sel.2 hagsel]
          have hme : sel.2 ≤ (groupPermEdges g2 r sel.1 sel.2).2 :=
            groupPermEdges_pos_le g2 r sel.1 sel.2
          rw [ih ((groupPermEdges g2 r sel.1 sel.2).2) (agreeFrom_mono h (by omega))]

theorem genInheritsAux_pos_le (g : Rng) (parents : List Group) :
    ∀ (children : List Group) (pos : ℕ) (out : List InheritEdge × ℕ),
      genInheritsAux g parents children pos = some out → pos ≤ out.2 := by
  intro children
  induction children with
  | nil => intro pos out h; obtain rfl := Option.some.inj h; exact le_rfl
  | cons c rest ih =>
    intro pos out h
    rw [genInheritsAux] at h
    split at h
    · split at h
      · cases h
      · rename_i p hp
        dsimp only at h
        split at h
        · cases h
        · rename_i tail hr
          obtain rfl := Option.some.inj h
          have h1 : p.2 = (randQ g pos).2 + 1 := choiceO_snd hp
          have h2 : (randQ g pos).2 = pos + 1 := rfl
          have h4 := ih _ _ hr
          dsimp only [dtBetween] at h4 ⊢
          omega
    · have h4 := ih _ _ h
      have h2 : (randQ g pos).2 = pos + 1 := rfl
      omega

theorem genInheritsAux_agree (g1 g2 : Rng) (parents : List Group) :
    ∀ (children : List Group) (pos : ℕ), agreeFrom g1 g2 pos →
      genInheritsAux g1 parents children pos = genInheritsAux g2 parents children pos := by
  intro children
  induction children with
  | nil => intro pos h; rfl
  | cons c rest ih =>
    intro pos h
    rw [genInheritsAux, genInheritsAux, randQ_agree h]
    split
    · have hagq : agreeFrom g1 g2 (randQ g2 pos).2 := agreeFrom_mono h (by
        have : (randQ g2 pos).2 = pos + 1 := rfl
        omega)
      rw [← choiceO_agree hagq parents]
      split
      · rfl
      · rename_i p hp
        have hp2 : p.2 = (randQ g2 pos).2 + 1 := choiceO_snd hp
        have hagp : agreeFrom g1 g2 p.2 := agreeFrom_mono h (by
          have : (randQ g2 pos).2 = pos + 1 := rfl
          omega)
        dsimp only
        rw [dtBetween_agree hagp (max c.created_at p.1.created_at) NOW]
        have hts : (dtBetween g2 (max c.created_at p.1.created_at) NOW p.2).2 = p.2 + 1 := rfl
        rw [ih ((dtBetween g2 (max c.created_at p.1.created_at) NOW p.2).2)
          (agreeFrom_mono h (by
            have : (randQ g2 pos).2 = pos + 1 := rfl
            omega))]
    · exact ih ((randQ g2 pos).2) (agreeFrom_mono h (by
        have : (randQ g2 pos).2 = pos + 1 := rfl
        omega))

/-- C8 counterexample: the seed state is hidden global mutable state.  Both
invocations below use the identical seeded stream and the identical count
(one user), but the second invocation resumes from the cursor the first one
left behind — exactly what happens on a second call inside one Python
process, where `random.seed(42)` ran once at module import — and produces a
different user record. -/
theorem generator_hidden_state_counterexample :
    (generate_users (fun p => p) 1 0).1 ≠
      (generate_users (fun p => p) 1 (generate_users (fun p => p) 1 0).2).1 := by
  decide

/-- C8 amended: a generation run is a deterministic function of the seeded
random stream and of the cursor it starts from: it reads the stream only at
positions at or after its starting cursor, so any two streams that agree
from the cursor onward (in particular, re-seeding with the identical seed)
produce the identical dataset for identical entity counts.  The cursor
itself, however, is hidden global mutable state — a second invocation in the
same process starts from the advanced cursor and may produce different
output (see the counterexample). -/
theorem generateDataset_deterministic (g1 g2 : Rng) (nu nr ng pos : ℕ)
    (h : agreeFrom g1 g2 pos) :
    generateDataset g1 nu nr ng pos = generateDataset g2 nu nr ng pos := by
  unfold generateDataset generate_users generate_resources generate_groups
    generate_member_of_edges generate_user_permission_edges
    generate_group_permission_edges generate_inherits_from_edges
  dsimp only
  obtain ⟨hu1, hu2⟩ := genUsersAux_agree g1 g2 nu 0 pos h
  rw [hu1] at hu2
  rw [hu1]
  obtain ⟨hr1, hr2⟩ := genResourcesAux_agree g1 g2 nr nr 0
    ((genUsersAux g2 0 nu pos).2) (agreeFrom_mono h hu2)
  rw [hr1] at hr2
  rw [hr1]
  obtain ⟨hg1, hg2⟩ := genGroupsAux_agree g1 g2 ng 0
    ((genResourcesAux g2 nr 0 nr (genUsersAux g2 0 nu pos).2).2)
    (agreeFrom_mono h (by omega))
  rw [hg1] at hg2
  rw [hg1]
  rw [genMemberOfAux_agree g1 g2 _ _ _ (agreeFrom_mono h (by omega))]
  split
  · rfl
  · rename_i mo hmo
    have hmo2 := genMemberOfAux_pos_le g2 _ _ _ _ hmo
    rw [genUserPermsAux_agree g1 g2 _ _ _ (agreeFrom_mono h (by omega))]
    split
    · rfl
    · rename_i up hup
      have hup2 := genUserPermsAux_pos_le g2 _ _ _ _ hup
      rw [genGroupPermsAux_agree g1 g2 _ _ _ (agreeFrom_mono h (by omega))]
      split
      · rfl
      · rename_i gp hgp
        have hgp2 := genGroupPermsAux_pos_le g2 _ _ _ _ hgp
        rw [genInheritsAux_agree g1 g2 _ _ _ (agreeFrom_mono h (by omega))]

/-- Witness for C8's amended claim: two concrete streams that differ before
position 5 but agree from position 5 onward generate identical datasets when
the run starts at cursor 5. -/
theorem generateDataset_deterministic_witness :
    agreeFrom (fun _ => 0) (fun p => if p < 5 then 7 else 0) 5 ∧
    generateDataset (fun _ => 0) 1 1 2 5 =
      generateDataset (fun p => if p < 5 then 7 else 0) 1 1 2 5 :=
  have hag : agreeFrom (fun _ => 0) (fun p => if p < 5 then 7 else 0) 5 := by
    intro p hp
    show (0 : ℕ) = if p < 5 then 7 else 0
    rw [if_neg (by omega)]
  ⟨hag, generateDataset_deterministic (fun _ => 0) (fun p => if p < 5 then 7 else 0) 1 1 2 5 hag⟩

end KuzuTest
